import Mathlib

/-! # Talend2Postman: the converter of `src/index.js`, embedded in Lean

The converter reads a document produced by `JSON.parse` and maps it to Postman
collections.  The embedding keeps the JavaScript semantics the program relies
on: values are untyped JSON values, a property read on `null`/`undefined` and a
call of a method a value does not have raise a `TypeError`, `a || b` selects on
truthiness, `a?.k` short-circuits on `null`/`undefined`.

Conventions of the model:
* strings are lists of Unicode characters (`List Char`), written `"abc".toList`; the
  program only cuts strings at `:` and `/` and compares them with ASCII literals;
* a JSON number is given by the two things the program reads of it: whether it is zero
  (its truthiness) and the text JavaScript prints for it (`7`, `0.5`, `1e+21`); the
  program never computes with a number;
* an exception is an `Except.error`; the only exception the mapping functions
  can raise is a `TypeError`;
* `uuidv4()` draws from an explicit supply of identifiers.
-/

namespace Talend2Postman

/-! ## Values -/

/-- A JavaScript string. -/
abbrev JSString := List Char

/-- The values the program handles: the results of `JSON.parse`, and `undefined`,
which a read of a missing property yields.  An object is the list of its own
properties, each name listed once; a read takes the entry with the name.  A number
`num zero text` is given by what the program can read of it: `zero` says whether it is
`0` or `-0`, and `text` is the text the conversion `Number::toString` gives it, as in
`7`, `-0.5` or `1e+21`. -/
inductive JVal where
  | undefined
  | null
  | bool (b : Bool)
  | num (zero : Bool) (text : JSString)
  | str (s : JSString)
  | arr (xs : List JVal)
  | obj (kvs : List (JSString × JVal))
  deriving Repr, Inhabited

/-- The exceptions of the mapping functions. -/
inductive JsError where
  | typeError
  deriving Repr, DecidableEq

/-- The result of an expression that may throw. -/
abbrev Js (α : Type) := Except JsError α

/-- Is the value `null` or `undefined`. -/
def JVal.isNullish : JVal → Bool
  | .undefined => true
  | .null => true
  | _ => false

/-- The boolean a value converts to (`ToBoolean`): `undefined`, `null`, `false`, `0` and
the empty string are falsy, every object and array is truthy. -/
def truthy : JVal → Bool
  | .undefined => false
  | .null => false
  | .bool b => b
  | .num zero _ => !zero
  | .str s => !s.isEmpty
  | .arr _ => true
  | .obj _ => true

/-- The own property `k` of an object, `undefined` when it has none. -/
def lookupKey (k : JSString) : List (JSString × JVal) → JVal
  | [] => .undefined
  | (k', v) :: rest => if k' = k then v else lookupKey k rest

/-- The read `v.k` of a property whose name no prototype defines (all the names the
program reads are such): it throws on `null` and `undefined`, is the own property of an
object, and is `undefined` on a boolean, a number, a string and an array. -/
def getProp (v : JVal) (k : JSString) : Js JVal :=
  match v with
  | .undefined => .error .typeError
  | .null => .error .typeError
  | .obj kvs => .ok (lookupKey k kvs)
  | _ => .ok .undefined

/-- The optional read `v?.k`: `undefined` on `null` and `undefined`, else `v.k`. -/
def optProp (v : JVal) (k : JSString) : JVal :=
  match v with
  | .obj kvs => lookupKey k kvs
  | _ => .undefined

/-- The expression `a || b`. -/
def orElse (a b : JVal) : JVal :=
  if truthy a then a else b

/-- The comparison `v === "lit"` with a string literal. -/
def strictEqStr (v : JVal) (lit : JSString) : Bool :=
  match v with
  | .str s => s == lit
  | _ => false

/-- Does the object have an own property `k`. -/
def hasKey (k : JSString) (kvs : List (JSString × JVal)) : Bool :=
  kvs.any (fun kv => kv.1 == k)

mutual
/-- The conversion `ToString`, as a template literal and `RegExp.prototype.test` apply
it.  A number is the text it carries.  An array is the texts of its elements joined
with commas, `null` elements giving
the empty text.  An object is `[object Object]`, unless an own property `toString`
(which in parsed JSON is never a function) hides the inherited method: then no
conversion to a primitive exists and a `TypeError` is thrown. -/
def jsToString : JVal → Js JSString
  | .undefined => .ok "undefined".toList
  | .null => .ok "null".toList
  | .bool true => .ok "true".toList
  | .bool false => .ok "false".toList
  | .num _ text => .ok text
  | .str s => .ok s
  | .arr xs => joinElems xs
  | .obj kvs => if hasKey "toString".toList kvs then .error .typeError
      else .ok "[object Object]".toList
termination_by structural v => v
/-- The text of `xs.join(",")`. -/
def joinElems : List JVal → Js JSString
  | [] => .ok []
  | x :: rest =>
    match (if x.isNullish then .ok [] else jsToString x) with
    | .error e => .error e
    | .ok s =>
      match joinTail rest with
      | .error e => .error e
      | .ok t => .ok (s ++ t)
termination_by structural xs => xs
/-- The text of the elements after the first, each preceded by a comma. -/
def joinTail : List JVal → Js JSString
  | [] => .ok []
  | x :: rest =>
    match (if x.isNullish then .ok [] else jsToString x) with
    | .error e => .error e
    | .ok s =>
      match joinTail rest with
      | .error e => .error e
      | .ok t => .ok (',' :: (s ++ t))
termination_by structural xs => xs
end

/-! ## String methods -/

/-- The call `s.replace(c, "")` with a one-character string `c`: the first occurrence
of `c` is removed. -/
def replaceFirst (c : Char) : JSString → JSString
  | [] => []
  | d :: rest => if d = c then rest else d :: replaceFirst c rest

/-- The call `s.replace(/^\/+/, "")`: the leading run of slashes is removed. -/
def stripLeadingSlashes : JSString → JSString
  | [] => []
  | d :: rest => if d = '/' then stripLeadingSlashes rest else d :: rest

/-- The call `s.split(sep)` with a one-character separator. -/
def split (sep : Char) : JSString → List JSString
  | [] => [[]]
  | d :: rest =>
    if d = sep then [] :: split sep rest
    else
      match split sep rest with
      | [] => [[d]]
      | seg :: segs => (d :: seg) :: segs

/-- The call `s.toLowerCase()` on the letters `A`-`Z`.  The program compares a
lower-cased string only with `content-type` and `application/json`; no character
outside `A`-`Z` lower-cases to a letter that can take part in a match of either. -/
def toLowerCase (s : JSString) : JSString :=
  s.map Char.toLower

/-- The call `s.includes(pat)`. -/
def includes (pat : JSString) : JSString → Bool
  | [] => pat.isEmpty
  | d :: rest => pat.isPrefixOf (d :: rest) || includes pat rest

/-- The call `/pat/i.test(v)` for a pattern of lower-case letters, `-` and `/` only:
the text of `v` is searched for `pat`, letters compared without case.  Without the `u`
flag no character outside `A`-`Z`, `a`-`z` matches a letter of the pattern. -/
def regexTestI (pat : JSString) (v : JVal) : Js Bool :=
  match jsToString v with
  | .error e => .error e
  | .ok s => .ok (includes pat (toLowerCase s))

/-! ## Array methods with a callback that may throw -/

/-- The loop `xs.forEach(x => body)` over a state the body updates. -/
def forEach {α σ : Type} (body : σ → α → Js σ) : σ → List α → Js σ
  | acc, [] => .ok acc
  | acc, x :: rest =>
    match body acc x with
    | .error e => .error e
    | .ok acc' => forEach body acc' rest

/-- The call `xs.map(f)`. -/
def mapJs {α β : Type} (f : α → Js β) : List α → Js (List β)
  | [] => .ok []
  | x :: rest =>
    match f x with
    | .error e => .error e
    | .ok y =>
      match mapJs f rest with
      | .error e => .error e
      | .ok ys => .ok (y :: ys)

/-- The call `xs.filter(p)`. -/
def filterJs {α : Type} (p : α → Js Bool) : List α → Js (List α)
  | [] => .ok []
  | x :: rest =>
    match p x with
    | .error e => .error e
    | .ok b =>
      match filterJs p rest with
      | .error e => .error e
      | .ok ys => .ok (if b then x :: ys else ys)

/-- The call `xs.find(p)`: the first element `p` accepts; the elements after it are
not visited. -/
def findJs {α : Type} (p : α → Js Bool) : List α → Js (Option α)
  | [] => .ok none
  | x :: rest =>
    match p x with
    | .error e => .error e
    | .ok true => .ok (some x)
    | .ok false => findJs p rest

/-! ## The target tree -/

/-- An entry `{ key, value }` of the output header list. -/
structure HeaderEntry where
  key : JVal
  value : JVal
  deriving Repr

/-- An entry `{ key, value, type }` of an `urlencoded` or `formdata` body. -/
structure FormEntry where
  key : JVal
  value : JVal
  type : JSString
  deriving Repr

/-- The output URL; `port` is `none` when the object has no `port` property. -/
structure PostmanUrl where
  raw : JSString
  protocol : JSString
  host : List JVal
  path : List JSString
  port : Option JVal
  deriving Repr

/-- The output body: `urlencoded`, `formdata` and `options` are `none` when the object
has no such property; `options` holds the language of `options.raw.language`. -/
structure PostmanBody where
  mode : JSString
  raw : JVal
  urlencoded : Option (List FormEntry)
  formdata : Option (List FormEntry)
  options : Option JSString
  deriving Repr

/-- The `request` object of a request item. -/
structure PostmanRequest where
  method : JVal
  header : List HeaderEntry
  body : PostmanBody
  url : PostmanUrl
  deriving Repr

/-- A request item. -/
structure RequestItem where
  name : JVal
  request : PostmanRequest
  response : List JVal
  deriving Repr

/-- A folder: the image of a Service node. -/
structure Folder where
  name : JVal
  item : List RequestItem
  deriving Repr

/-- The `info` object of a collection. -/
structure CollectionInfo where
  _postman_id : JSString
  name : JVal
  schema : JSString
  _exporter_id : JSString
  deriving Repr

/-- A collection: the image of a Project node. -/
structure Collection where
  info : CollectionInfo
  item : List Folder
  deriving Repr

/-! ## The mapping functions -/

/-- The constant `SCHEMA_V2_1`. -/
def SCHEMA_V2_1 : JSString :=
  "https://schema.getpostman.com/json/collection/v2.1.0/collection.json".toList

/-- The receiver of a call of a string method (`replace`, `split`, `toLowerCase`): a
string; on any other value the call throws, the property being unreadable (`null`,
`undefined`) or not a function. -/
def asString : JVal → Js JSString
  | .str s => .ok s
  | _ => .error .typeError

/-- The element `xs[i]` an array pattern binds: `undefined` past the end. -/
def elemAt (xs : List JSString) (i : Nat) : JVal :=
  match xs.get? i with
  | some s => .str s
  | none => .undefined

/-- The body of the loop over `headers` (lines 42-49). -/
def pushHeader (postmanHeaders : List HeaderEntry) (h : JVal) : Js (List HeaderEntry) := do
  let enabled ← getProp h "enabled".toList
  if truthy enabled then
    let key ← getProp h "name".toList
    let value ← getProp h "value".toList
    pure (postmanHeaders ++ [{ key := key, value := value }])
  else
    pure postmanHeaders

/-- The callback of `find` (line 54). -/
def isContentType (hdr : HeaderEntry) : Js Bool := do
  let key ← asString hdr.key
  pure (toLowerCase key == "content-type".toList)

/-- The callback of the `urlencoded` map (lines 64-68). -/
def urlencodedEntry (fi : JVal) : Js FormEntry := do
  let name ← getProp fi "name".toList
  let value ← getProp fi "value".toList
  pure { key := name, value := value, type := "text".toList }

/-- The callback of the `formdata` map (lines 71-75). -/
def formdataEntry (fi : JVal) : Js FormEntry := do
  let name ← getProp fi "name".toList
  let value ← getProp fi "value".toList
  let type ← getProp fi "type".toList
  pure { key := name, value := value,
         type := if strictEqStr type "file".toList then "file".toList else "text".toList }

/-- The URL of the request (lines 16-38). -/
def buildUrl (uri : JVal) : Js PostmanUrl := do
  let schemeName ← asString
    (orElse (optProp (optProp uri "scheme".toList) "name".toList) (.str "http".toList))
  let scheme := replaceFirst ':' schemeName
  let host := orElse (optProp uri "host".toList) (.str "localhost".toList)
  let path ← asString (orElse (optProp uri "path".toList) (.str []))
  let trimmedPath := stripLeadingSlashes path
  let hostText ← jsToString host
  let rawUrl := scheme ++ "://".toList ++ hostText
  let rawUrl := if trimmedPath.isEmpty then rawUrl else rawUrl ++ '/' :: trimmedPath
  let hostParts := split ':' (← asString host)
  let hostWithoutPort := elemAt hostParts 0
  let portMaybe := elemAt hostParts 1
  pure
    { raw := rawUrl
      protocol := scheme
      host := [hostWithoutPort]
      path := if trimmedPath.isEmpty then [] else split '/' trimmedPath
      port := if truthy portMaybe then some portMaybe else none }

/-- The header list of the request (lines 40-50). -/
def collectHeaders (headers : JVal) : Js (List HeaderEntry) :=
  match headers with
  | .arr hs => forEach pushHeader [] hs
  | _ => .ok []

/-- The content type the headers declare (lines 53-56). -/
def detectContentType (postmanHeaders : List HeaderEntry) : Js JSString := do
  let contentTypeHeader ← findJs isContentType postmanHeaders
  match contentTypeHeader with
  | some hdr => do
      let value ← asString hdr.value
      pure (toLowerCase value)
  | none => pure []

/-- The body of the request (lines 52 and 58-97). -/
def buildBody (body : JVal) (contentType : JSString) : Js PostmanBody := do
  let postmanBody : PostmanBody :=
    { mode := "raw".toList, raw := .str [], urlencoded := none, formdata := none,
      options := none }
  let formBody := orElse (optProp body "formBody".toList) (.obj [])
  let formItems := orElse (optProp formBody "items".toList) (.arr [])
  match formItems with
  | .arr (fi :: fis) => do
      let encoding ← getProp formBody "encoding".toList
      if ← regexTestI "x-www-form-urlencoded".toList encoding then
        let entries ← mapJs urlencodedEntry (fi :: fis)
        pure { postmanBody with mode := "urlencoded".toList, urlencoded := some entries }
      else if ← regexTestI "multipart/form-data".toList encoding then
        let entries ← mapJs formdataEntry (fi :: fis)
        pure { postmanBody with mode := "formdata".toList, formdata := some entries }
      else
        pure { mode := "raw".toList
               raw := orElse (optProp body "textBody".toList) (.str [])
               urlencoded := none
               formdata := none
               options := some "text".toList }
  | _ =>
      let textBody := orElse (optProp body "textBody".toList) (.str [])
      if includes "application/json".toList contentType then
        pure { postmanBody with mode := "raw".toList, raw := textBody,
                                options := some "json".toList }
      else if truthy textBody then
        pure { postmanBody with mode := "raw".toList, raw := textBody,
                                options := some "text".toList }
      else
        pure { postmanBody with mode := "raw".toList, raw := .str [] }

/-- The name of the item (line 100). -/
def itemName (name id : JVal) : Js JVal :=
  if truthy name then .ok name
  else
    match jsToString id with
    | .error e => .error e
    | .ok idText => .ok (.str ("Request ".toList ++ idText))

/-- The function `talendRequestToPostmanItem` (lines 11-109), its statements in the
order of the source. -/
def talendRequestToPostmanItem (talendRequest : JVal) : Js RequestItem := do
  let id ← getProp talendRequest "id".toList
  let name ← getProp talendRequest "name".toList
  let method ← getProp talendRequest "method".toList
  let headers ← getProp talendRequest "headers".toList
  let uri ← getProp talendRequest "uri".toList
  let body ← getProp talendRequest "body".toList
  let postmanMethod := orElse (optProp method "name".toList) (.str "GET".toList)
  let postmanUrl ← buildUrl uri
  let postmanHeaders ← collectHeaders headers
  let contentType ← detectContentType postmanHeaders
  let postmanBody ← buildBody body contentType
  let name ← itemName name id
  pure
    { name := name
      request :=
        { method := postmanMethod
          header := postmanHeaders
          body := postmanBody
          url := postmanUrl }
      response := [] }

/-- The test `node.entity && node.entity.type === tag` of the three tree walks. -/
def entityTypeIs (tag : JSString) (node : JVal) : Js Bool := do
  let entity ← getProp node "entity".toList
  if truthy entity then
    let type ← getProp entity "type".toList
    pure (strictEqStr type tag)
  else
    pure false

/-- The body of the loop over the children of a Service node (lines 117-121). -/
def pushRequest (items : List RequestItem) (reqChild : JVal) : Js (List RequestItem) := do
  if ← entityTypeIs "Request".toList reqChild then
    let entity ← getProp reqChild "entity".toList
    let item ← talendRequestToPostmanItem entity
    pure (items ++ [item])
  else
    pure items

/-- The items of a Service node (lines 115-122). -/
def collectRequests (children : JVal) : Js (List RequestItem) :=
  match children with
  | .arr cs => forEach pushRequest [] cs
  | _ => .ok []

/-- The function `talendServiceToPostmanFolder` (lines 111-128). -/
def talendServiceToPostmanFolder (serviceNode : JVal) : Js Folder := do
  let serviceEntity ← getProp serviceNode "entity".toList
  let name ← getProp serviceEntity "name".toList
  let serviceName := orElse name (.str "Unnamed Service".toList)
  let children ← getProp serviceNode "children".toList
  let items ← collectRequests children
  pure { name := serviceName, item := items }

/-- The body of the loop over the children of a Project node (lines 136-140). -/
def pushService (items : List Folder) (serviceChild : JVal) : Js (List Folder) := do
  if ← entityTypeIs "Service".toList serviceChild then
    let folder ← talendServiceToPostmanFolder serviceChild
    pure (items ++ [folder])
  else
    pure items

/-- The items of a Project node (lines 134-141). -/
def collectServices (children : JVal) : Js (List Folder) :=
  match children with
  | .arr cs => forEach pushService [] cs
  | _ => .ok []

/-- The function `talendProjectToPostmanCollection` (lines 130-152).  The call
`uuidv4()` is the `n`-th draw from the supply `uuid`; the function returns the
collection and the number of the next draw. -/
def talendProjectToPostmanCollection (uuid : Nat → JSString) (projectNode : JVal)
    (n : Nat) : Js (Collection × Nat) := do
  let projectEntity ← getProp projectNode "entity".toList
  let name ← getProp projectEntity "name".toList
  let projectName := orElse name (.str "Unnamed Project".toList)
  let children ← getProp projectNode "children".toList
  let items ← collectServices children
  pure
    ({ info :=
         { _postman_id := uuid n
           name := projectName
           schema := SCHEMA_V2_1
           _exporter_id := "talend2postman".toList }
       item := items }, n + 1)

/-- The call `xs.map(f)` with a callback that draws from the supply. -/
def mapDraw {α β : Type} (f : α → Nat → Js (β × Nat)) : List α → Nat → Js (List β × Nat)
  | [], n => .ok ([], n)
  | x :: rest, n =>
    match f x n with
    | .error e => .error e
    | .ok (y, n') =>
      match mapDraw f rest n' with
      | .error e => .error e
      | .ok (ys, n'') => .ok (y :: ys, n'')

/-- The function `convertTalendToPostman` (lines 154-160): `filter` and `map` are
array methods, on any other truthy value of `entities` the call of `filter` throws. -/
def convertTalendToPostman (uuid : Nat → JSString) (talendJson : JVal) (n : Nat) :
    Js (List Collection × Nat) := do
  let entities ← getProp talendJson "entities".toList
  let projects := orElse entities (.arr [])
  match projects with
  | .arr ps => do
      let kept ← filterJs (entityTypeIs "Project".toList) ps
      mapDraw (talendProjectToPostmanCollection uuid) kept n
  | _ => .error .typeError

/-- The value `main` hands to `JSON.stringify`: one collection object, or an array of
collections. -/
inductive OutputValue where
  | object (c : Collection)
  | array (cs : List Collection)
  deriving Repr

/-- The choice of the value to serialize in `main` (lines 189-194): `collections[0]`
when `collections.length === 1`, else `collections`. -/
def outputValue (collections : List Collection) : OutputValue :=
  if h : collections.length = 1 then .object (collections.get ⟨0, by omega⟩)
  else .array collections

/-- The statements of `main` between the parsing of the input and the writing of the
output (lines 187-194): the conversion of the parsed document, whose exceptions `main`
does not catch, and the choice of the value to serialize.  The reading, the parsing and
the writing are input and output and are not part of the model. -/
def mainOutputValue (uuid : Nat → JSString) (talendData : JVal) (n : Nat) : Js OutputValue := do
  let (collections, _) ← convertTalendToPostman uuid talendData n
  pure (outputValue collections)

/-! ## The vocabulary of the specification -/

/-- The elements of an array; nothing when the value is not an array. -/
def nodesOf (v : JVal) : List JVal :=
  match v with
  | .arr xs => xs
  | _ => []

/-- The top-level nodes of a document. -/
def topLevelNodes (doc : JVal) : List JVal :=
  nodesOf (optProp doc "entities".toList)

/-- The child nodes of a node. -/
def childNodes (node : JVal) : List JVal :=
  nodesOf (optProp node "children".toList)

/-- The entity of a node. -/
def entityOf (node : JVal) : JVal :=
  optProp node "entity".toList

/-- The entity type of the node is exactly `tag`. -/
def hasEntityType (tag : JSString) (node : JVal) : Bool :=
  strictEqStr (optProp (entityOf node) "type".toList) tag

/-- The Project nodes at the top level of a document, in order. -/
def projectNodes (doc : JVal) : List JVal :=
  (topLevelNodes doc).filter (hasEntityType "Project".toList)

/-- The Service children of a node, in order. -/
def serviceNodes (node : JVal) : List JVal :=
  (childNodes node).filter (hasEntityType "Service".toList)

/-- The entities of the Request children of a node, in order. -/
def requestEntities (node : JVal) : List JVal :=
  ((childNodes node).filter (hasEntityType "Request".toList)).map entityOf

/-- The Request entities that are children of a Service child of a top-level Project
node, in document order. -/
def reachableRequests (doc : JVal) : List JVal :=
  (projectNodes doc).flatMap fun p => (serviceNodes p).flatMap requestEntities

/-- The request items of a list of collections, collection by collection and folder by
folder. -/
def allRequestItems (cols : List Collection) : List RequestItem :=
  cols.flatMap fun c => c.item.flatMap fun f => f.item

/-- The shape of a document the converter accepts at the top level: an object whose
`entities` is falsy (absent, `null`) or an array without `null` elements. -/
def documentShape (doc : JVal) : Bool :=
  !doc.isNullish &&
    (match optProp doc "entities".toList with
     | .arr ps => ps.all fun p => !p.isNullish
     | v => !truthy v)

/-- The URL built from a scheme name, a host and a path that are strings. -/
def urlOf (schemeName host path : JSString) : PostmanUrl :=
  { raw :=
      if (stripLeadingSlashes path).isEmpty then
        replaceFirst ':' schemeName ++ "://".toList ++ host
      else
        replaceFirst ':' schemeName ++ "://".toList ++ host ++ '/' :: stripLeadingSlashes path
    protocol := replaceFirst ':' schemeName
    host := [elemAt (split ':' host) 0]
    path :=
      if (stripLeadingSlashes path).isEmpty then [] else split '/' (stripLeadingSlashes path)
    port :=
      if truthy (elemAt (split ':' host) 1) then some (elemAt (split ':' host) 1) else none }

/-- The expression `uri?.scheme?.name || "http"` (line 16). -/
def schemeNameOf (uri : JVal) : JVal :=
  orElse (optProp (optProp uri "scheme".toList) "name".toList) (.str "http".toList)

/-- The expression `uri?.host || "localhost"` (line 18). -/
def hostOf (uri : JVal) : JVal :=
  orElse (optProp uri "host".toList) (.str "localhost".toList)

/-- The expression `uri?.path || ""` (line 20). -/
def pathOf (uri : JVal) : JVal :=
  orElse (optProp uri "path".toList) (.str [])

/-- The header is enabled: its `enabled` flag is truthy (for a boolean flag: is `true`). -/
def headerEnabled (h : JVal) : Bool :=
  truthy (optProp h "enabled".toList)

/-- The `enabled` flag of the header is the boolean `true`. -/
def enabledIsTrue (h : JVal) : Bool :=
  match optProp h "enabled".toList with
  | .bool true => true
  | _ => false

/-- The entry `{ key: name, value: value }` of a header. -/
def headerEntry (h : JVal) : HeaderEntry :=
  { key := optProp h "name".toList, value := optProp h "value".toList }

/-- The `headers` of a request entity. -/
def headersOf (req : JVal) : List JVal :=
  nodesOf (optProp req "headers".toList)

/-- The `uri` of a request entity. -/
def uriOf (req : JVal) : JVal :=
  optProp req "uri".toList

/-- The `body.formBody` of a request entity. -/
def formBodyOf (req : JVal) : JVal :=
  optProp (optProp req "body".toList) "formBody".toList

/-- The `body.formBody.items` of a request entity. -/
def formItemsOf (req : JVal) : JVal :=
  optProp (formBodyOf req) "items".toList

/-- The `body.formBody.encoding` of a request entity. -/
def encodingOf (req : JVal) : JVal :=
  optProp (formBodyOf req) "encoding".toList

/-- The `body.textBody` of a request entity. -/
def textBodyOf (req : JVal) : JVal :=
  optProp (optProp req "body".toList) "textBody".toList

/-- The entry `{ key: name, value, type: "text" }` of a form item. -/
def textEntry (fi : JVal) : FormEntry :=
  { key := optProp fi "name".toList, value := optProp fi "value".toList,
    type := "text".toList }

/-- The entry `{ key: name, value, type }` of a form item, of type `file` exactly when
the type of the item is the string `file`. -/
def fileOrTextEntry (fi : JVal) : FormEntry :=
  { key := optProp fi "name".toList, value := optProp fi "value".toList,
    type := if strictEqStr (optProp fi "type".toList) "file".toList then "file".toList
      else "text".toList }

/-- The string `s` contains `pat` when letters are compared without case: a part of `s`
lower-cases to `pat`. -/
def ContainsIgnoreCase (pat s : JSString) : Prop :=
  ∃ pre mid post, s = pre ++ mid ++ post ∧ toLowerCase mid = pat

/-- The string `s` contains `pat`. -/
def Contains (pat s : JSString) : Prop :=
  ∃ pre post, s = pre ++ pat ++ post

/-- The name of the header is a string that equals `content-type` when case is ignored. -/
def isContentTypeHeader (h : JVal) : Bool :=
  match optProp h "name".toList with
  | .str k => toLowerCase k == "content-type".toList
  | _ => false

/-- The first enabled header of the request whose name is `content-type`, case ignored. -/
def firstContentTypeHeader (req : JVal) : Option JVal :=
  ((headersOf req).filter headerEnabled).find? isContentTypeHeader

/-- The key of the entry is a string that equals `content-type` when case is ignored. -/
def entryIsContentType (e : HeaderEntry) : Bool :=
  match e.key with
  | .str k => toLowerCase k == "content-type".toList
  | _ => false

/-- The body of a request without form items, for the detected content type `ct` and
the text `textBody` (lines 84-96). -/
def rawBodyOf (ct : JSString) (textBody : JVal) : PostmanBody :=
  if includes "application/json".toList ct then
    { mode := "raw".toList, raw := textBody, urlencoded := none, formdata := none,
      options := some "json".toList }
  else if truthy textBody then
    { mode := "raw".toList, raw := textBody, urlencoded := none, formdata := none,
      options := some "text".toList }
  else
    { mode := "raw".toList, raw := .str [], urlencoded := none, formdata := none,
      options := none }

/-- The two collections agree in every field except the generated identifier: the
same name, schema and exporter tag, and the same folders with the same request items. -/
def sameExceptId (a b : Collection) : Prop :=
  a.info.name = b.info.name ∧ a.info.schema = b.info.schema ∧
    a.info._exporter_id = b.info._exporter_id ∧ a.item = b.item

/-- The raw URL rebuilt from the other fields of the URL: the protocol, `://`, the first
host element, `:` and the port when there is a port, `/` and the path segments joined
with `/` when there are segments. -/
def rebuiltRaw (url : PostmanUrl) : JSString :=
  url.protocol ++ "://".toList ++
    (match url.host with
     | .str h :: _ => h
     | _ => []) ++
    (match url.port with
     | some (.str p) => ':' :: p
     | _ => []) ++
    (if url.path.isEmpty then [] else '/' :: List.intercalate "/".toList url.path)

/-- The value is a string. -/
def isString : JVal → Bool
  | .str _ => true
  | _ => false

/-- The value is a string or is falsy (absent, `null`, `false`, `0`). -/
def stringOrFalsy (v : JVal) : Bool :=
  isString v || !truthy v

/-- The conversion `ToString` of the value does not throw. -/
def hasText (v : JVal) : Bool :=
  match jsToString v with
  | .ok _ => true
  | .error _ => false

/-- The content type can be read off the enabled headers, taken in order: every header
up to and including the first one named `content-type` (case ignored) has a string
name, and that header has a string value.  The headers after it are not looked at. -/
def contentTypeReadable : List JVal → Bool
  | [] => true
  | h :: rest =>
    match optProp h "name".toList with
    | .str k =>
      if toLowerCase k == "content-type".toList then isString (optProp h "value".toList)
      else contentTypeReadable rest
    | _ => false

/-- The form of the request can be read: when `formBody.items` is a non-empty array,
the encoding has a text and, if that text matches the urlencoded or the multipart
pattern, no item is `null`.  Nothing is asked when there are no form items. -/
def formReadable (req : JVal) : Bool :=
  match formItemsOf req with
  | .arr (fi :: fis) =>
    match jsToString (encodingOf req) with
    | .error _ => false
    | .ok t =>
      if includes "x-www-form-urlencoded".toList (toLowerCase t) ||
          includes "multipart/form-data".toList (toLowerCase t) then
        (fi :: fis).all fun x => !x.isNullish
      else true
  | _ => true

/-- The request entities on which the request mapper returns: not `null`; with
`uri.scheme.name`, `uri.host` and `uri.path` each a string or falsy; without `null`
header; with a readable content type; with a readable form; and with a truthy name or
an `id` that has a text.  Nothing else is asked: not of `method`, `body`, `textBody`,
of the disabled headers, of the headers after the content type, or of the names, values
and types of the form items. -/
def requestAccepted (req : JVal) : Bool :=
  !req.isNullish &&
    stringOrFalsy (optProp (optProp (uriOf req) "scheme".toList) "name".toList) &&
    stringOrFalsy (optProp (uriOf req) "host".toList) &&
    stringOrFalsy (optProp (uriOf req) "path".toList) &&
    (headersOf req).all (fun h => !h.isNullish) &&
    contentTypeReadable ((headersOf req).filter headerEnabled) &&
    formReadable req &&
    (truthy (optProp req "name".toList) || hasText (optProp req "id".toList))

/-! ## Sample inputs -/

/-- A property `k: v` of an object literal. -/
def prop (k : String) (v : JVal) : JSString × JVal :=
  (k.toList, v)

/-- A string value. -/
def lit (s : String) : JVal :=
  .str s.toList

/-- A supply of identifiers: `u0`, `u1`, ... -/
def sampleUuid (n : Nat) : JSString :=
  'u' :: Nat.toDigits 10 n

/-- A node `{ entity: { type, name }, children }`. -/
def sampleNode (type name : String) (children : List JVal) : JVal :=
  .obj [prop "entity" (.obj [prop "type" (lit type), prop "name" (lit name)]),
        prop "children" (.arr children)]

/-- A document with two Projects, each with one Service with one Request, and with
Requests in four other places: directly under a Project, under a non-Service child,
one level below a Request of a Service, and under a Service of a non-Project node. -/
def sampleDocument : JVal :=
  .obj [prop "entities" (.arr
    [ sampleNode "Project" "P1"
        [ sampleNode "Service" "S1"
            [ sampleNode "Request" "r1" [sampleNode "Request" "deep" []] ],
          sampleNode "Request" "under-project" [],
          sampleNode "Folder" "F" [sampleNode "Request" "under-folder" []] ],
      sampleNode "Workspace" "W"
        [ sampleNode "Service" "S0" [sampleNode "Request" "under-workspace" []] ],
      sampleNode "Project" "P2"
        [ sampleNode "Service" "S2" [sampleNode "Request" "r2" []] ] ])]

/-- A document without a Project node. -/
def sampleDocumentNoProject : JVal :=
  .obj [prop "entities" (.arr [sampleNode "Workspace" "W" [], sampleNode "Service" "S" []])]

/-- A request whose only header is enabled and has no name. -/
def requestHeaderWithoutName : JVal :=
  .obj [prop "id" (lit "1"), prop "name" (lit "r"),
        prop "headers" (.arr [.obj [prop "enabled" (.bool true), prop "value" (lit "x")]])]

/-- A request whose host is a number. -/
def requestNumericHost : JVal :=
  .obj [prop "id" (lit "1"), prop "name" (lit "r"),
        prop "uri" (.obj [prop "host" (.num false "8080".toList)])]

/-- A request `{ id: "1", uri: { host } }`. -/
def requestWithHost (host : String) : JVal :=
  .obj [prop "id" (lit "1"), prop "uri" (.obj [prop "host" (lit host)])]

/-- A request `{ id: "1", uri: { path } }`. -/
def requestWithPath (path : String) : JVal :=
  .obj [prop "id" (lit "1"), prop "uri" (.obj [prop "path" (lit path)])]

/-- A request `{ id: "1", uri: { scheme: { name } } }`. -/
def requestWithScheme (name : String) : JVal :=
  .obj [prop "id" (lit "1"), prop "uri" (.obj [prop "scheme" (.obj [prop "name" (lit name)])])]

/-- A request with every part of the URL, three headers of which the second is disabled,
a text body and an urlencoded form of two items. -/
def sampleRequest : JVal :=
  .obj [prop "id" (lit "42"), prop "name" (lit "List items"),
        prop "method" (.obj [prop "name" (lit "POST")]),
        prop "uri" (.obj [prop "scheme" (.obj [prop "name" (lit "https:")]),
                          prop "host" (lit "example.com:8080"),
                          prop "path" (lit "//v1/items")]),
        prop "headers" (.arr
          [ .obj [prop "enabled" (.bool true), prop "name" (lit "Accept"), prop "value" (lit "*/*")],
            .obj [prop "enabled" (.bool false), prop "name" (lit "X-Debug"), prop "value" (lit "1")],
            .obj [prop "enabled" (.bool true), prop "name" (lit "Content-Type"),
                  prop "value" (lit "application/json")] ]),
        prop "body" (.obj
          [ prop "textBody" (lit "hello"),
            prop "formBody" (.obj
              [ prop "encoding" (lit "application/X-WWW-Form-Urlencoded"),
                prop "items" (.arr
                  [ .obj [prop "name" (lit "a"), prop "value" (lit "1")],
                    .obj [prop "name" (lit "b"), prop "value" (lit "2"),
                          prop "type" (lit "file")] ]) ]) ])]

/-- A request in which fields are missing, `null` or of another type than the data
model gives them. -/
def sparseRequest : JVal :=
  .obj [prop "name" (.num false "5".toList), prop "method" (lit "POST"),
        prop "uri" (.obj [prop "scheme" (.num true "0".toList), prop "host" .null,
                          prop "path" (.bool false)]),
        prop "headers" (lit "none"),
        prop "body" (.obj [prop "textBody" (.num false "42".toList), prop "formBody" (.arr [])])]

/-- A request with a JSON content type, a text body and a form of two items, the second
a file, in the given encoding (no encoding when `none`). -/
def requestWithForm (encoding : Option String) : JVal :=
  .obj [prop "id" (lit "7"),
        prop "headers" (.arr
          [ .obj [prop "enabled" (.bool true), prop "name" (lit "Content-Type"),
                  prop "value" (lit "application/json")] ]),
        prop "body" (.obj
          [ prop "textBody" (lit "hello"),
            prop "formBody" (.obj
              ((match encoding with
                | some e => [prop "encoding" (lit e)]
                | none => []) ++
              [ prop "items" (.arr
                  [ .obj [prop "name" (lit "a"), prop "value" (lit "1")],
                    .obj [prop "name" (lit "b"), prop "value" (lit "2"),
                          prop "type" (lit "file")] ]) ])) ])]

/-- A request without form items, with the given headers and text body. -/
def requestWithHeaders (headers : List JVal) (textBody : String) : JVal :=
  .obj [prop "id" (lit "9"), prop "headers" (.arr headers),
        prop "body" (.obj [prop "textBody" (lit textBody)])]

/-- A header `{ enabled, name, value }`. -/
def sampleHeader (enabled : Bool) (name value : String) : JVal :=
  .obj [prop "enabled" (.bool enabled), prop "name" (lit name), prop "value" (lit value)]

/-- A document with one Project. -/
def sampleDocumentOneProject : JVal :=
  .obj [prop "entities" (.arr [sampleNode "Workspace" "W" [], sampleNode "Project" "P" []])]

/-- A second supply of identifiers: `v0`, `vv1`, `vvv2`, ... -/
def otherUuid (n : Nat) : JSString :=
  List.replicate (n + 1) 'v' ++ Nat.toDigits 10 n

/-- A request on which the mapper returns although fields are of another type than the
data model gives them: the `id` is an array, the encoding of the form is an array, a
form item is `null` under an encoding that matches no pattern, a header that is not the
content type has a numeric value, and a header after the content type has no name. -/
def oddRequest : JVal :=
  .obj [prop "id" (.arr [.num false "1".toList, lit "a"]),
        prop "headers" (.arr
          [ .obj [prop "enabled" (.bool true), prop "name" (lit "X-Count"),
                  prop "value" (.num false "3".toList)],
            sampleHeader true "Content-Type" "text/plain",
            .obj [prop "enabled" (.bool true), prop "value" (lit "nameless")] ]),
        prop "body" (.obj
          [ prop "formBody" (.obj
              [ prop "encoding" (.arr [lit "text", lit "plain"]),
                prop "items" (.arr [.null]) ]) ])]

/-! ## Reading properties -/

theorem getProp_eq_ok {v : JVal} {k : JSString} {x : JVal} (h : getProp v k = .ok x) :
    v.isNullish = false ∧ x = optProp v k := by
  cases v <;> simp_all [getProp, optProp, JVal.isNullish]

theorem getProp_of_not_nullish {v : JVal} (k : JSString) (h : v.isNullish = false) :
    getProp v k = .ok (optProp v k) := by
  cases v <;> simp_all [getProp, optProp, JVal.isNullish]

theorem asString_eq_ok {v : JVal} {s : JSString} (h : asString v = .ok s) : v = .str s := by
  cases v <;> simp_all [asString]

theorem ok_bind {α β : Type} (x : α) (f : α → Js β) : (Except.ok x >>= f) = f x := rfl

theorem error_bind {α β : Type} (e : JsError) (f : α → Js β) :
    ((Except.error e : Js α) >>= f) = Except.error e := rfl

theorem pure_eq_ok {α : Type} (x : α) : (pure x : Js α) = Except.ok x := rfl

theorem bind_error_ne_ok {α β : Type} (x : Js α) (e : JsError) (y : β) :
    (x >>= fun _ => (Except.error e : Js β)) ≠ Except.ok y := by
  cases x <;> simp [bind, Except.bind]

/-! ## The request mapper, statement by statement -/

/-- What a returned item is made of: the results of the five parts of the function. -/
theorem talendRequestToPostmanItem_eq_ok {req : JVal} {item : RequestItem}
    (h : talendRequestToPostmanItem req = .ok item) :
    req.isNullish = false ∧
    ∃ url hs ct body nm,
      buildUrl (optProp req "uri".toList) = .ok url ∧
      collectHeaders (optProp req "headers".toList) = .ok hs ∧
      detectContentType hs = .ok ct ∧
      buildBody (optProp req "body".toList) ct = .ok body ∧
      itemName (optProp req "name".toList) (optProp req "id".toList) = .ok nm ∧
      item =
        { name := nm
          request :=
            { method := orElse (optProp (optProp req "method".toList) "name".toList)
                (.str "GET".toList)
              header := hs
              body := body
              url := url }
          response := [] } := by
  have hn : req.isNullish = false := by
    cases req <;> simp_all [talendRequestToPostmanItem, getProp, JVal.isNullish, bind, Except.bind]
  refine ⟨hn, ?_⟩
  unfold talendRequestToPostmanItem at h
  rw [getProp_of_not_nullish "id".toList hn, getProp_of_not_nullish "name".toList hn,
    getProp_of_not_nullish "method".toList hn, getProp_of_not_nullish "headers".toList hn,
    getProp_of_not_nullish "uri".toList hn, getProp_of_not_nullish "body".toList hn] at h
  simp only [ok_bind] at h
  cases h1 : buildUrl (optProp req "uri".toList) with
  | error e => rw [h1] at h; simp only [error_bind] at h; cases h
  | ok url =>
    rw [h1] at h; simp only [ok_bind] at h
    cases h2 : collectHeaders (optProp req "headers".toList) with
    | error e => rw [h2] at h; simp only [error_bind] at h; cases h
    | ok hs =>
      rw [h2] at h; simp only [ok_bind] at h
      cases h3 : detectContentType hs with
      | error e => rw [h3] at h; simp only [error_bind] at h; cases h
      | ok ct =>
        rw [h3] at h; simp only [ok_bind] at h
        cases h4 : buildBody (optProp req "body".toList) ct with
        | error e => rw [h4] at h; simp only [error_bind] at h; cases h
        | ok body =>
          rw [h4] at h; simp only [ok_bind] at h
          cases h5 : itemName (optProp req "name".toList) (optProp req "id".toList) with
          | error e => rw [h5] at h; simp only [error_bind] at h; cases h
          | ok nm =>
            rw [h5] at h; simp only [ok_bind, pure_eq_ok] at h
            cases h
            refine ⟨url, hs, ct, body, nm, ?_, ?_, ?_, ?_, ?_, rfl⟩ <;> first | rfl | assumption

/-- The converse: when the five parts return, so does the function. -/
theorem talendRequestToPostmanItem_of_parts {req : JVal} {url : PostmanUrl}
    {hs : List HeaderEntry} {ct : JSString} {body : PostmanBody} {nm : JVal}
    (hn : req.isNullish = false)
    (h1 : buildUrl (optProp req "uri".toList) = .ok url)
    (h2 : collectHeaders (optProp req "headers".toList) = .ok hs)
    (h3 : detectContentType hs = .ok ct)
    (h4 : buildBody (optProp req "body".toList) ct = .ok body)
    (h5 : itemName (optProp req "name".toList) (optProp req "id".toList) = .ok nm) :
    talendRequestToPostmanItem req = .ok
      { name := nm
        request :=
          { method := orElse (optProp (optProp req "method".toList) "name".toList)
              (.str "GET".toList)
            header := hs
            body := body
            url := url }
        response := [] } := by
  unfold talendRequestToPostmanItem
  rw [getProp_of_not_nullish "id".toList hn, getProp_of_not_nullish "name".toList hn,
    getProp_of_not_nullish "method".toList hn, getProp_of_not_nullish "headers".toList hn,
    getProp_of_not_nullish "uri".toList hn, getProp_of_not_nullish "body".toList hn]
  simp only [ok_bind, h1, h2, h3, h4, h5, pure_eq_ok]

/-! ## The string methods -/

theorem replaceFirst_of_not_mem {c : Char} {s : JSString} (h : c ∉ s) :
    replaceFirst c s = s := by
  induction s with
  | nil => rfl
  | cons d rest ih =>
    simp only [List.mem_cons, not_or] at h
    have hd : d ≠ c := fun e => h.1 e.symm
    simp [replaceFirst, hd, ih h.2]

theorem replaceFirst_append {c : Char} {a : JSString} (b : JSString) (h : c ∉ a) :
    replaceFirst c (a ++ c :: b) = a ++ b := by
  induction a with
  | nil => simp [replaceFirst]
  | cons d rest ih =>
    simp only [List.mem_cons, not_or] at h
    have hd : d ≠ c := fun e => h.1 e.symm
    simp [replaceFirst, hd, ih h.2]

theorem stripLeadingSlashes_replicate (k : Nat) (t : JSString) (h : t.head? ≠ some '/') :
    stripLeadingSlashes (List.replicate k '/' ++ t) = t := by
  induction k with
  | zero =>
    cases t with
    | nil => rfl
    | cons d rest =>
      have hd : d ≠ '/' := by simpa using h
      simp [stripLeadingSlashes, hd]
  | succ k ih => simpa [List.replicate_succ, stripLeadingSlashes] using ih

theorem stripLeadingSlashes_spec (s : JSString) :
    (∃ k, s = List.replicate k '/' ++ stripLeadingSlashes s) ∧
      (stripLeadingSlashes s).head? ≠ some '/' := by
  induction s with
  | nil => exact ⟨⟨0, rfl⟩, by simp [stripLeadingSlashes]⟩
  | cons d rest ih =>
    by_cases hd : d = '/'
    · subst hd
      obtain ⟨⟨k, hk⟩, h2⟩ := ih
      refine ⟨⟨k + 1, ?_⟩, by simpa [stripLeadingSlashes] using h2⟩
      simp only [stripLeadingSlashes, if_true, List.replicate_succ, List.cons_append]
      exact congrArg _ hk
    · exact ⟨⟨0, by simp [stripLeadingSlashes, hd]⟩, by simp [stripLeadingSlashes, hd]⟩

theorem split_ne_nil (sep : Char) (s : JSString) : split sep s ≠ [] := by
  cases s with
  | nil => simp [split]
  | cons d rest =>
    simp only [split]
    split
    · simp
    · split <;> simp

theorem split_of_not_mem {sep : Char} {s : JSString} (h : sep ∉ s) : split sep s = [s] := by
  induction s with
  | nil => rfl
  | cons d rest ih =>
    simp only [List.mem_cons, not_or] at h
    have hd : d ≠ sep := fun e => h.1 e.symm
    simp [split, hd, ih h.2]

theorem split_append {sep : Char} {a : JSString} (b : JSString) (h : sep ∉ a) :
    split sep (a ++ sep :: b) = a :: split sep b := by
  induction a with
  | nil => simp [split]
  | cons d rest ih =>
    simp only [List.mem_cons, not_or] at h
    have hd : d ≠ sep := fun e => h.1 e.symm
    simp [split, hd, ih h.2]

/-- The segments of a split contain no separator. -/
theorem not_mem_of_mem_split {sep : Char} {s seg : JSString} (h : seg ∈ split sep s) :
    sep ∉ seg := by
  induction s generalizing seg with
  | nil =>
    simp only [split, List.mem_singleton] at h
    subst h
    simp
  | cons d rest ih =>
    simp only [split] at h
    by_cases hd : d = sep
    · simp only [hd, if_true, List.mem_cons] at h
      rcases h with h | h
      · subst h; simp
      · exact ih h
    · simp only [hd, if_false] at h
      cases hr : split sep rest with
      | nil => exact absurd hr (split_ne_nil sep rest)
      | cons seg0 segs =>
        rw [hr] at h
        simp only [List.mem_cons] at h
        rcases h with h | h
        · subst h
          have h0 : sep ∉ seg0 := ih (by rw [hr]; exact List.mem_cons_self _ _)
          simp only [List.mem_cons, not_or]
          exact ⟨fun e => hd e.symm, h0⟩
        · exact ih (by rw [hr]; exact List.mem_cons_of_mem _ h)

/-- Joining the segments of a split with the separator gives the string back. -/
theorem intercalate_split (sep : Char) (s : JSString) :
    List.intercalate [sep] (split sep s) = s := by
  induction s with
  | nil => simp [split, List.intercalate]
  | cons d rest ih =>
    simp only [split]
    by_cases hd : d = sep
    · simp only [hd, if_true]
      cases hr : split sep rest with
      | nil => exact absurd hr (split_ne_nil sep rest)
      | cons seg0 segs =>
        rw [hr] at ih
        simp only [List.intercalate, List.intersperse, List.flatten_cons, List.nil_append,
          List.singleton_append] at ih ⊢
        rw [ih]
    · simp only [hd, if_false]
      cases hr : split sep rest with
      | nil => exact absurd hr (split_ne_nil sep rest)
      | cons seg0 segs =>
        rw [hr] at ih
        cases segs with
        | nil =>
          simp only [List.intercalate, List.intersperse, List.flatten_cons, List.flatten_nil,
            List.append_nil] at ih ⊢
          rw [ih]
        | cons seg1 segs =>
          simp only [List.intercalate, List.intersperse, List.flatten_cons, List.cons_append] at ih ⊢
          rw [ih]

/-! ## The URL -/

theorem buildUrl_of_strings {uri : JVal} {schemeName host path : JSString}
    (hs : schemeNameOf uri = .str schemeName) (hh : hostOf uri = .str host)
    (hp : pathOf uri = .str path) :
    buildUrl uri = .ok (urlOf schemeName host path) := by
  unfold schemeNameOf at hs
  unfold hostOf at hh
  unfold pathOf at hp
  unfold buildUrl
  rw [hs, hh, hp]
  rfl

/-- The URL is returned exactly when scheme name, host and path are strings after
defaulting, and then it is `urlOf` of them. -/
theorem buildUrl_eq_ok {uri : JVal} {url : PostmanUrl} (h : buildUrl uri = .ok url) :
    ∃ schemeName host path,
      schemeNameOf uri = .str schemeName ∧ hostOf uri = .str host ∧
      pathOf uri = .str path ∧ url = urlOf schemeName host path := by
  cases hs : schemeNameOf uri with
  | str schemeName =>
    cases hh : hostOf uri with
    | str host =>
      cases hp : pathOf uri with
      | str path =>
        rw [buildUrl_of_strings hs hh hp] at h
        cases h
        exact ⟨schemeName, host, path, rfl, rfl, rfl, rfl⟩
      | _ =>
        exfalso
        unfold pathOf at hp
        unfold schemeNameOf at hs
        unfold buildUrl at h
        rw [hs, hp] at h
        cases h
    | _ =>
      exfalso
      unfold hostOf at hh
      unfold schemeNameOf at hs
      unfold buildUrl at h
      rw [hs, hh] at h
      cases hp : asString (orElse (optProp uri "path".toList) (.str [])) with
      | error e => rw [hp] at h; cases h
      | ok path =>
        rw [hp] at h
        simp only [asString, ok_bind, error_bind] at h
        first
          | cases h
          | exact bind_error_ne_ok _ _ _ h
  | _ =>
    exfalso
    unfold schemeNameOf at hs
    unfold buildUrl at h
    rw [hs] at h
    cases h

/-! ## The array methods -/

theorem JsError.eq_typeError (e : JsError) : e = .typeError := by
  cases e; rfl

theorem mapJs_pure {α β : Type} (g : α → β) (xs : List α) :
    mapJs (fun x => (Except.ok (g x) : Js β)) xs = .ok (xs.map g) := by
  induction xs with
  | nil => rfl
  | cons x rest ih => simp [mapJs, ih]

theorem mapJs_map {α β γ : Type} (g : α → β) (f : β → Js γ) (xs : List α) :
    mapJs f (xs.map g) = mapJs (fun x => f (g x)) xs := by
  induction xs with
  | nil => rfl
  | cons x rest ih => simp [mapJs, ih]

theorem mapJs_length {α β : Type} {f : α → Js β} {xs : List α} {ys : List β}
    (h : mapJs f xs = .ok ys) : ys.length = xs.length := by
  induction xs generalizing ys with
  | nil => simp only [mapJs] at h; cases h; rfl
  | cons x rest ih =>
    simp only [mapJs] at h
    cases hx : f x with
    | error e => rw [hx] at h; cases h
    | ok y =>
      rw [hx] at h
      cases hr : mapJs f rest with
      | error e => rw [hr] at h; cases h
      | ok ys' =>
        rw [hr] at h
        cases h
        simp [ih hr]

theorem mapJs_append {α β : Type} {f : α → Js β} {xs ys : List α} {as bs : List β}
    (hx : mapJs f xs = .ok as) (hy : mapJs f ys = .ok bs) :
    mapJs f (xs ++ ys) = .ok (as ++ bs) := by
  induction xs generalizing as with
  | nil => simp only [mapJs] at hx; cases hx; simpa using hy
  | cons x rest ih =>
    simp only [mapJs] at hx
    cases hfx : f x with
    | error e => rw [hfx] at hx; cases hx
    | ok y =>
      rw [hfx] at hx
      cases hr : mapJs f rest with
      | error e => rw [hr] at hx; cases hx
      | ok ys' =>
        rw [hr] at hx
        cases hx
        simp [mapJs, hfx, ih hr]

/-- A loop whose body throws on the elements `good` rejects, skips those `sel` rejects
and pushes `f x` for the others returns exactly when every element is good and `f`
returns on every selected one; it has then appended their images, in order. -/
theorem forEach_push_iff {α β : Type} (body : List β → α → Js (List β)) (good sel : α → Bool)
    (f : α → Js β)
    (hbad : ∀ acc x, good x = false → body acc x = .error .typeError)
    (hskip : ∀ acc x, good x = true → sel x = false → body acc x = .ok acc)
    (hpush : ∀ acc x, good x = true → sel x = true →
      body acc x = (f x >>= fun y => .ok (acc ++ [y])))
    (acc : List β) (xs : List α) (items : List β) :
    forEach body acc xs = .ok items ↔
      (∀ x ∈ xs, good x = true) ∧ ∃ ys, mapJs f (xs.filter sel) = .ok ys ∧ items = acc ++ ys := by
  induction xs generalizing acc with
  | nil =>
    simp only [forEach, List.filter_nil, mapJs]
    constructor
    · intro h; cases h; exact ⟨by simp, [], rfl, by simp⟩
    · rintro ⟨-, ys, hys, rfl⟩; cases hys; simp
  | cons x rest ih =>
    simp only [forEach, List.mem_cons, forall_eq_or_imp]
    cases hg : good x with
    | false =>
      rw [hbad acc x hg]
      simp
    | true =>
      cases hsel : sel x with
      | false =>
        rw [hskip acc x hg hsel]
        simp only [List.filter_cons, hsel, true_and]
        simpa using ih acc
      | true =>
        rw [hpush acc x hg hsel]
        simp only [List.filter_cons, hsel, if_true, mapJs, true_and]
        cases hfx : f x with
        | error e => simp [error_bind]
        | ok y =>
          simp only [ok_bind]
          rw [ih (acc ++ [y])]
          constructor
          · rintro ⟨hall, ys, hys, rfl⟩
            exact ⟨hall, y :: ys, by rw [hys], by simp⟩
          · rintro ⟨hall, ys, hys, rfl⟩
            cases hr : mapJs f (rest.filter sel) with
            | error e => rw [hr] at hys; cases hys
            | ok ys' =>
              rw [hr] at hys
              cases hys
              exact ⟨hall, ys', rfl, by simp⟩

/-! ## The tree walks -/

theorem not_nullish_of_truthy {v : JVal} (h : truthy v = true) : v.isNullish = false := by
  cases v <;> simp_all [truthy, JVal.isNullish]

theorem optProp_of_not_truthy {v : JVal} (k : JSString) (h : truthy v = false) :
    optProp v k = .undefined := by
  cases v <;> simp_all [truthy, optProp]

theorem entityTypeIs_of_not_nullish (tag : JSString) {node : JVal}
    (h : node.isNullish = false) :
    entityTypeIs tag node = .ok (hasEntityType tag node) := by
  unfold entityTypeIs hasEntityType entityOf
  rw [getProp_of_not_nullish "entity".toList h]
  simp only [ok_bind]
  cases ht : truthy (optProp node "entity".toList) with
  | true =>
    simp only [if_true]
    rw [getProp_of_not_nullish "type".toList (not_nullish_of_truthy ht)]
    rfl
  | false =>
    rw [optProp_of_not_truthy "type".toList ht]
    rfl

theorem entityTypeIs_of_nullish (tag : JSString) {node : JVal} (h : node.isNullish = true) :
    entityTypeIs tag node = .error .typeError := by
  cases node <;> simp_all [JVal.isNullish] <;> rfl

theorem entityTypeIs_eq_ok {tag : JSString} {node : JVal} {b : Bool}
    (h : entityTypeIs tag node = .ok b) :
    node.isNullish = false ∧ b = hasEntityType tag node := by
  cases hn : node.isNullish with
  | true => rw [entityTypeIs_of_nullish tag hn] at h; cases h
  | false =>
    rw [entityTypeIs_of_not_nullish tag hn] at h
    cases h
    exact ⟨rfl, rfl⟩

/-- The filter on the entity type returns exactly on arrays without `null`, and keeps
the nodes of the type. -/
theorem filterJs_entityTypeIs (tag : JSString) (xs kept : List JVal) :
    filterJs (entityTypeIs tag) xs = .ok kept ↔
      (∀ x ∈ xs, x.isNullish = false) ∧ kept = xs.filter (hasEntityType tag) := by
  induction xs generalizing kept with
  | nil =>
    simp only [filterJs, List.filter_nil]
    constructor
    · intro h; cases h; exact ⟨by simp, rfl⟩
    · rintro ⟨-, rfl⟩; rfl
  | cons x rest ih =>
    simp only [filterJs, List.mem_cons, forall_eq_or_imp]
    cases hn : x.isNullish with
    | true =>
      rw [entityTypeIs_of_nullish tag hn]
      simp
    | false =>
      rw [entityTypeIs_of_not_nullish tag hn]
      simp only [true_and]
      cases hr : filterJs (entityTypeIs tag) rest with
      | error e =>
        constructor
        · intro h; cases h
        · rintro ⟨hall, -⟩
          have := (ih (rest.filter (hasEntityType tag))).2 ⟨hall, rfl⟩
          rw [hr] at this
          cases this
      | ok ys =>
        obtain ⟨hall, hys⟩ := (ih ys).1 hr
        subst hys
        simp only [List.filter_cons]
        constructor
        · intro h; cases h; exact ⟨hall, rfl⟩
        · rintro ⟨-, h⟩; rw [h]

theorem pushRequest_bad (acc : List RequestItem) (x : JVal) (h : (!x.isNullish) = false) :
    pushRequest acc x = .error .typeError := by
  have hn : x.isNullish = true := by simpa using h
  unfold pushRequest
  rw [entityTypeIs_of_nullish _ hn]
  rfl

theorem pushRequest_skip (acc : List RequestItem) (x : JVal) (h : (!x.isNullish) = true)
    (hsel : hasEntityType "Request".toList x = false) : pushRequest acc x = .ok acc := by
  have hn : x.isNullish = false := by simpa using h
  unfold pushRequest
  rw [entityTypeIs_of_not_nullish _ hn, hsel]
  rfl

theorem pushRequest_push (acc : List RequestItem) (x : JVal) (h : (!x.isNullish) = true)
    (hsel : hasEntityType "Request".toList x = true) :
    pushRequest acc x =
      (talendRequestToPostmanItem (entityOf x) >>= fun y => .ok (acc ++ [y])) := by
  have hn : x.isNullish = false := by simpa using h
  unfold pushRequest
  rw [entityTypeIs_of_not_nullish _ hn, hsel, getProp_of_not_nullish _ hn]
  rfl

theorem pushService_bad (acc : List Folder) (x : JVal) (h : (!x.isNullish) = false) :
    pushService acc x = .error .typeError := by
  have hn : x.isNullish = true := by simpa using h
  unfold pushService
  rw [entityTypeIs_of_nullish _ hn]
  rfl

theorem pushService_skip (acc : List Folder) (x : JVal) (h : (!x.isNullish) = true)
    (hsel : hasEntityType "Service".toList x = false) : pushService acc x = .ok acc := by
  have hn : x.isNullish = false := by simpa using h
  unfold pushService
  rw [entityTypeIs_of_not_nullish _ hn, hsel]
  rfl

theorem pushService_push (acc : List Folder) (x : JVal) (h : (!x.isNullish) = true)
    (hsel : hasEntityType "Service".toList x = true) :
    pushService acc x =
      (talendServiceToPostmanFolder x >>= fun y => .ok (acc ++ [y])) := by
  have hn : x.isNullish = false := by simpa using h
  unfold pushService
  rw [entityTypeIs_of_not_nullish _ hn, hsel]
  rfl

theorem getProp_of_nullish {v : JVal} (k : JSString) (h : v.isNullish = true) :
    getProp v k = .error .typeError := by
  cases v <;> simp_all [getProp, JVal.isNullish]

theorem collectRequests_iff (children : JVal) (items : List RequestItem) :
    collectRequests children = .ok items ↔
      (∀ c ∈ nodesOf children, c.isNullish = false) ∧
        mapJs talendRequestToPostmanItem
          (((nodesOf children).filter (hasEntityType "Request".toList)).map entityOf) =
          .ok items := by
  have key : ∀ cs : List JVal, forEach pushRequest [] cs = .ok items ↔
      (∀ c ∈ cs, c.isNullish = false) ∧
        mapJs talendRequestToPostmanItem
          ((cs.filter (hasEntityType "Request".toList)).map entityOf) = .ok items := by
    intro cs
    rw [forEach_push_iff pushRequest (fun x => !x.isNullish) (hasEntityType "Request".toList)
      (fun x => talendRequestToPostmanItem (entityOf x)) pushRequest_bad pushRequest_skip
      pushRequest_push, mapJs_map]
    simp only [Bool.not_eq_true', List.nil_append]
    constructor
    · rintro ⟨hall, ys, hys, rfl⟩; exact ⟨hall, hys⟩
    · rintro ⟨hall, hys⟩; exact ⟨hall, items, hys, rfl⟩
  cases children <;> first
    | exact key _
    | exact ⟨fun h => ⟨fun c hc => (by cases hc), h⟩, fun h => h.2⟩

theorem collectServices_iff (children : JVal) (items : List Folder) :
    collectServices children = .ok items ↔
      (∀ c ∈ nodesOf children, c.isNullish = false) ∧
        mapJs talendServiceToPostmanFolder
          ((nodesOf children).filter (hasEntityType "Service".toList)) = .ok items := by
  have key : ∀ cs : List JVal, forEach pushService [] cs = .ok items ↔
      (∀ c ∈ cs, c.isNullish = false) ∧
        mapJs talendServiceToPostmanFolder (cs.filter (hasEntityType "Service".toList)) =
          .ok items := by
    intro cs
    rw [forEach_push_iff pushService (fun x => !x.isNullish) (hasEntityType "Service".toList)
      talendServiceToPostmanFolder pushService_bad pushService_skip pushService_push]
    simp only [Bool.not_eq_true', List.nil_append]
    constructor
    · rintro ⟨hall, ys, hys, rfl⟩; exact ⟨hall, hys⟩
    · rintro ⟨hall, hys⟩; exact ⟨hall, items, hys, rfl⟩
  cases children <;> first
    | exact key _
    | exact ⟨fun h => ⟨fun c hc => (by cases hc), h⟩, fun h => h.2⟩

/-- The Service mapper returns exactly on a node with an entity and without `null`
children on whose Request children the request mapper returns; the folder is then the
defaulted name and the images of the Request children. -/
theorem talendServiceToPostmanFolder_iff (svc : JVal) (folder : Folder) :
    talendServiceToPostmanFolder svc = .ok folder ↔
      svc.isNullish = false ∧ (entityOf svc).isNullish = false ∧
      (∀ c ∈ childNodes svc, c.isNullish = false) ∧
      folder.name =
        orElse (optProp (entityOf svc) "name".toList) (.str "Unnamed Service".toList) ∧
      mapJs talendRequestToPostmanItem (requestEntities svc) = .ok folder.item := by
  unfold talendServiceToPostmanFolder requestEntities childNodes
  rw [show entityOf svc = optProp svc "entity".toList from rfl]
  cases hn : svc.isNullish with
  | true =>
    rw [getProp_of_nullish "entity".toList hn]
    simp [error_bind]
  | false =>
    rw [getProp_of_not_nullish "entity".toList hn, getProp_of_not_nullish "children".toList hn]
    simp only [ok_bind, true_and]
    cases hen : (optProp svc "entity".toList).isNullish with
    | true =>
      rw [getProp_of_nullish "name".toList hen]
      simp [error_bind]
    | false =>
      rw [getProp_of_not_nullish "name".toList hen]
      simp only [ok_bind, true_and]
      cases hc : collectRequests (optProp svc "children".toList) with
      | error e =>
        simp only [error_bind]
        constructor
        · intro h; cases h
        · rintro ⟨hall, -, hm⟩
          have := (collectRequests_iff _ folder.item).2 ⟨hall, hm⟩
          rw [hc] at this
          cases this
      | ok items =>
        obtain ⟨hall, hm⟩ := (collectRequests_iff _ items).1 hc
        simp only [ok_bind, pure_eq_ok]
        constructor
        · intro h; cases h; exact ⟨hall, rfl, hm⟩
        · rintro ⟨-, hname, hm'⟩
          rw [hm] at hm'
          cases folder
          simp only at hname hm'
          cases hm'
          rw [hname]

/-- The Project mapper returns exactly on a node with an entity and without `null`
children on whose Service children the Service mapper returns; it draws one identifier. -/
theorem talendProjectToPostmanCollection_iff (uuid : Nat → JSString) (p : JVal) (n : Nat)
    (c : Collection) (n' : Nat) :
    talendProjectToPostmanCollection uuid p n = .ok (c, n') ↔
      p.isNullish = false ∧ (entityOf p).isNullish = false ∧
      (∀ ch ∈ childNodes p, ch.isNullish = false) ∧
      n' = n + 1 ∧
      c.info =
        { _postman_id := uuid n
          name := orElse (optProp (entityOf p) "name".toList) (.str "Unnamed Project".toList)
          schema := SCHEMA_V2_1
          _exporter_id := "talend2postman".toList } ∧
      mapJs talendServiceToPostmanFolder (serviceNodes p) = .ok c.item := by
  unfold talendProjectToPostmanCollection serviceNodes childNodes
  rw [show entityOf p = optProp p "entity".toList from rfl]
  cases hn : p.isNullish with
  | true =>
    rw [getProp_of_nullish "entity".toList hn]
    simp [error_bind]
  | false =>
    rw [getProp_of_not_nullish "entity".toList hn, getProp_of_not_nullish "children".toList hn]
    simp only [ok_bind, true_and]
    cases hen : (optProp p "entity".toList).isNullish with
    | true =>
      rw [getProp_of_nullish "name".toList hen]
      simp [error_bind]
    | false =>
      rw [getProp_of_not_nullish "name".toList hen]
      simp only [ok_bind, true_and]
      cases hc : collectServices (optProp p "children".toList) with
      | error e =>
        simp only [error_bind]
        constructor
        · intro h; cases h
        · rintro ⟨hall, -, -, hm⟩
          have := (collectServices_iff _ c.item).2 ⟨hall, hm⟩
          rw [hc] at this
          cases this
      | ok items =>
        obtain ⟨hall, hm⟩ := (collectServices_iff _ items).1 hc
        simp only [ok_bind, pure_eq_ok]
        constructor
        · intro h; cases h; exact ⟨hall, rfl, rfl, hm⟩
        · rintro ⟨-, hn', hinfo, hm'⟩
          rw [hm] at hm'
          cases c
          simp only at hinfo hm'
          cases hm'
          rw [hinfo, hn']

/-- A map that draws one identifier per element: the lengths agree, the draws are
consecutive, and the `i`-th result is the image of the `i`-th element at draw `n + i`. -/
theorem mapDraw_get {α β : Type} {f : α → Nat → Js (β × Nat)}
    (hstep : ∀ x m y m', f x m = .ok (y, m') → m' = m + 1) :
    ∀ (xs : List α) (n : Nat) (ys : List β) (n' : Nat), mapDraw f xs n = .ok (ys, n') →
      ys.length = xs.length ∧ n' = n + xs.length ∧
      ∀ (i : Nat) (hx : i < xs.length) (hy : i < ys.length),
        f (xs.get ⟨i, hx⟩) (n + i) = .ok (ys.get ⟨i, hy⟩, n + i + 1) := by
  intro xs
  induction xs with
  | nil =>
    intro n ys n' h
    simp only [mapDraw] at h
    cases h
    exact ⟨rfl, rfl, fun i hx => absurd hx (Nat.not_lt_zero i)⟩
  | cons x rest ih =>
    intro n ys n' h
    simp only [mapDraw] at h
    cases hfx : f x n with
    | error e => rw [hfx] at h; cases h
    | ok r =>
      obtain ⟨y, m⟩ := r
      rw [hfx] at h
      simp only at h
      have hm : m = n + 1 := hstep x n y m hfx
      subst hm
      cases hr : mapDraw f rest (n + 1) with
      | error e => rw [hr] at h; cases h
      | ok r' =>
        obtain ⟨ys', m'⟩ := r'
        rw [hr] at h
        simp only at h
        cases h
        obtain ⟨hlen, hn', hget⟩ := ih (n + 1) ys' n' hr
        refine ⟨by simp [hlen], by simp [hn']; omega, ?_⟩
        intro i hx hy
        cases i with
        | zero => simpa using hfx
        | succ j =>
          have := hget j (by simpa using hx) (by simpa using hy)
          simp only [List.get_eq_getElem, List.getElem_cons_succ] at this ⊢
          rw [show n + (j + 1) = n + 1 + j by omega]
          exact this

theorem orElse_of_truthy {a : JVal} (b : JVal) (h : truthy a = true) : orElse a b = a := by
  simp [orElse, h]

theorem orElse_of_not_truthy {a : JVal} (b : JVal) (h : truthy a = false) : orElse a b = b := by
  simp [orElse, h]

/-- The converter returns exactly on the documents of the accepted shape on whose
Project nodes the Project mapper returns, and is then the map over the Project nodes. -/
theorem convertTalendToPostman_iff (uuid : Nat → JSString) (doc : JVal) (n : Nat)
    (r : List Collection × Nat) :
    convertTalendToPostman uuid doc n = .ok r ↔
      documentShape doc = true ∧
        mapDraw (talendProjectToPostmanCollection uuid) (projectNodes doc) n = .ok r := by
  unfold convertTalendToPostman documentShape projectNodes topLevelNodes
  cases hn : doc.isNullish with
  | true =>
    rw [getProp_of_nullish "entities".toList hn]
    simp [error_bind]
  | false =>
    rw [getProp_of_not_nullish "entities".toList hn]
    simp only [ok_bind, Bool.not_false, Bool.true_and]
    cases he : optProp doc "entities".toList with
    | arr ps =>
      rw [orElse_of_truthy _ (by rfl)]
      simp only [nodesOf, List.all_eq_true, Bool.not_eq_true']
      cases hf : filterJs (entityTypeIs "Project".toList) ps with
      | error e =>
        simp only [error_bind]
        constructor
        · intro h; cases h
        · rintro ⟨hall, -⟩
          have := (filterJs_entityTypeIs "Project".toList ps _).2 ⟨hall, rfl⟩
          rw [hf] at this
          cases this
      | ok kept =>
        obtain ⟨hall, hk⟩ := (filterJs_entityTypeIs _ ps kept).1 hf
        subst hk
        simp only [ok_bind]
        exact ⟨fun h => ⟨hall, h⟩, fun h => h.2⟩
    | undefined => exact ⟨fun h => ⟨rfl, h⟩, fun h => h.2⟩
    | null => exact ⟨fun h => ⟨rfl, h⟩, fun h => h.2⟩
    | bool b =>
      cases b
      · exact ⟨fun h => ⟨rfl, h⟩, fun h => h.2⟩
      · exact ⟨fun h => (by cases h), fun h => (by cases h.1)⟩
    | num z t =>
      cases z
      · exact ⟨fun h => (by cases h), fun h => (by cases h.1)⟩
      · exact ⟨fun h => ⟨rfl, h⟩, fun h => h.2⟩
    | str t =>
      cases t with
      | nil => exact ⟨fun h => ⟨rfl, h⟩, fun h => h.2⟩
      | cons d rest => exact ⟨fun h => (by cases h), fun h => (by cases h.1)⟩
    | obj kvs => exact ⟨fun h => (by cases h), fun h => (by cases h.1)⟩

theorem mapDraw_total {α β : Type} {f : α → Nat → Js (β × Nat)} :
    ∀ (xs : List α), (∀ x ∈ xs, ∀ m, ∃ y, f x m = .ok (y, m + 1)) →
      ∀ n, ∃ ys, mapDraw f xs n = .ok (ys, n + xs.length) := by
  intro xs
  induction xs with
  | nil => intro _ n; exact ⟨[], rfl⟩
  | cons x rest ih =>
    intro h n
    obtain ⟨y, hy⟩ := h x (List.mem_cons_self _ _) n
    obtain ⟨ys, hys⟩ := ih (fun x' hx' => h x' (List.mem_cons_of_mem _ hx')) (n + 1)
    refine ⟨y :: ys, ?_⟩
    simp only [mapDraw, hy, hys, List.length_cons]
    rw [show n + 1 + rest.length = n + (rest.length + 1) by omega]

theorem mapJs_mem {α β : Type} {f : α → Js β} :
    ∀ (xs : List α) (ys : List β), mapJs f xs = .ok ys →
      ∀ y ∈ ys, ∃ x ∈ xs, f x = .ok y := by
  intro xs
  induction xs with
  | nil =>
    intro ys h y hy
    simp only [mapJs] at h
    cases h
    cases hy
  | cons x rest ih =>
    intro ys h y hy
    simp only [mapJs] at h
    cases hfx : f x with
    | error e => rw [hfx] at h; cases h
    | ok y0 =>
      rw [hfx] at h
      cases hr : mapJs f rest with
      | error e => rw [hr] at h; cases h
      | ok ys' =>
        rw [hr] at h
        cases h
        rcases List.mem_cons.1 hy with rfl | hy'
        · exact ⟨x, List.mem_cons_self _ _, hfx⟩
        · obtain ⟨x', hx', hfx'⟩ := ih ys' hr y hy'
          exact ⟨x', List.mem_cons_of_mem _ hx', hfx'⟩

/-- A map distributes over the flattening of sub-lists when each image carries the
images of the sub-list of its source. -/
theorem mapJs_flatMap {α β γ δ : Type} {f : α → Js β} {g : γ → Js δ} {sub : α → List γ}
    {out : β → List δ} (hfg : ∀ x y, f x = .ok y → mapJs g (sub x) = .ok (out y)) :
    ∀ (xs : List α) (ys : List β), mapJs f xs = .ok ys →
      mapJs g (xs.flatMap sub) = .ok (ys.flatMap out) := by
  intro xs
  induction xs with
  | nil =>
    intro ys h
    simp only [mapJs] at h
    cases h
    rfl
  | cons x rest ih =>
    intro ys h
    simp only [mapJs] at h
    cases hfx : f x with
    | error e => rw [hfx] at h; cases h
    | ok y =>
      rw [hfx] at h
      cases hr : mapJs f rest with
      | error e => rw [hr] at h; cases h
      | ok ys' =>
        rw [hr] at h
        cases h
        simp only [List.flatMap_cons]
        exact mapJs_append (hfg x y hfx) (ih ys' hr)

theorem mapDraw_flatMap {α β γ δ : Type} {f : α → Nat → Js (β × Nat)} {g : γ → Js δ}
    {sub : α → List γ} {out : β → List δ}
    (hfg : ∀ x m y m', f x m = .ok (y, m') → mapJs g (sub x) = .ok (out y)) :
    ∀ (xs : List α) (n : Nat) (ys : List β) (n' : Nat), mapDraw f xs n = .ok (ys, n') →
      mapJs g (xs.flatMap sub) = .ok (ys.flatMap out) := by
  intro xs
  induction xs with
  | nil =>
    intro n ys n' h
    simp only [mapDraw] at h
    cases h
    rfl
  | cons x rest ih =>
    intro n ys n' h
    simp only [mapDraw] at h
    cases hfx : f x n with
    | error e => rw [hfx] at h; cases h
    | ok r =>
      obtain ⟨y, m⟩ := r
      rw [hfx] at h
      simp only at h
      cases hr : mapDraw f rest m with
      | error e => rw [hr] at h; cases h
      | ok r' =>
        obtain ⟨ys', m'⟩ := r'
        rw [hr] at h
        simp only at h
        cases h
        simp only [List.flatMap_cons]
        exact mapJs_append (hfg x n y m hfx) (ih m ys' n' hr)

/-- The request items of a folder are the images of the Request children of its node. -/
theorem folder_items {svc : JVal} {folder : Folder}
    (h : talendServiceToPostmanFolder svc = .ok folder) :
    mapJs talendRequestToPostmanItem (requestEntities svc) = .ok folder.item :=
  ((talendServiceToPostmanFolder_iff svc folder).1 h).2.2.2.2

/-- The request items of a collection are the images of the Request children of the
Service children of its node. -/
theorem collection_items {uuid : Nat → JSString} {p : JVal} {n n' : Nat} {c : Collection}
    (h : talendProjectToPostmanCollection uuid p n = .ok (c, n')) :
    mapJs talendRequestToPostmanItem ((serviceNodes p).flatMap requestEntities) =
      .ok (c.item.flatMap fun f => f.item) :=
  mapJs_flatMap (fun _ _ => folder_items) _ _
    ((talendProjectToPostmanCollection_iff uuid p n c n').1 h).2.2.2.2.2

/-! ## The headers -/

theorem pushHeader_bad (acc : List HeaderEntry) (h : JVal) (hb : (!h.isNullish) = false) :
    pushHeader acc h = .error .typeError := by
  have hn : h.isNullish = true := by simpa using hb
  unfold pushHeader
  rw [getProp_of_nullish _ hn]
  rfl

theorem pushHeader_skip (acc : List HeaderEntry) (h : JVal) (hg : (!h.isNullish) = true)
    (hsel : headerEnabled h = false) : pushHeader acc h = .ok acc := by
  have hn : h.isNullish = false := by simpa using hg
  unfold headerEnabled at hsel
  unfold pushHeader
  rw [getProp_of_not_nullish "enabled".toList hn]
  simp only [ok_bind, hsel]
  rfl

theorem pushHeader_push (acc : List HeaderEntry) (h : JVal) (hg : (!h.isNullish) = true)
    (hsel : headerEnabled h = true) :
    pushHeader acc h =
      ((Except.ok (headerEntry h) : Js HeaderEntry) >>= fun y => .ok (acc ++ [y])) := by
  have hn : h.isNullish = false := by simpa using hg
  unfold headerEnabled at hsel
  unfold pushHeader
  rw [getProp_of_not_nullish "enabled".toList hn, getProp_of_not_nullish "name".toList hn,
    getProp_of_not_nullish "value".toList hn]
  simp only [ok_bind, hsel]
  rfl

/-- The header list is returned exactly when `headers` has no `null` element (or is not
an array); it is the entries of the enabled headers, in order. -/
theorem collectHeaders_iff (headers : JVal) (hs : List HeaderEntry) :
    collectHeaders headers = .ok hs ↔
      (∀ h ∈ nodesOf headers, h.isNullish = false) ∧
        hs = ((nodesOf headers).filter headerEnabled).map headerEntry := by
  have key : ∀ xs : List JVal, forEach pushHeader [] xs = .ok hs ↔
      (∀ h ∈ xs, h.isNullish = false) ∧ hs = (xs.filter headerEnabled).map headerEntry := by
    intro xs
    rw [forEach_push_iff pushHeader (fun x => !x.isNullish) headerEnabled
      (fun h => .ok (headerEntry h)) pushHeader_bad pushHeader_skip pushHeader_push,
      mapJs_pure]
    simp only [Bool.not_eq_true', List.nil_append]
    constructor
    · rintro ⟨hall, ys, hys, rfl⟩; cases hys; exact ⟨hall, rfl⟩
    · rintro ⟨hall, rfl⟩; exact ⟨hall, _, rfl, rfl⟩
  cases headers <;> first
    | exact key _
    | exact ⟨fun h => ⟨fun c hc => (by cases hc), (by cases h; rfl)⟩, fun h => (by rw [h.2]; rfl)⟩

/-! ## The content type and the body -/

theorem findJs_total {α : Type} {p : α → Js Bool} :
    ∀ (xs : List α), (∀ x ∈ xs, ∃ b, p x = .ok b) →
      ∃ r, findJs p xs = .ok r ∧ ∀ x, r = some x → x ∈ xs := by
  intro xs
  induction xs with
  | nil => intro _; exact ⟨none, rfl, fun x hx => by cases hx⟩
  | cons x rest ih =>
    intro h
    obtain ⟨b, hb⟩ := h x (List.mem_cons_self _ _)
    cases b with
    | true =>
      refine ⟨some x, by simp [findJs, hb], ?_⟩
      intro y hy
      cases hy
      exact List.mem_cons_self _ _
    | false =>
      obtain ⟨r, hr, hmem⟩ := ih (fun y hy => h y (List.mem_cons_of_mem _ hy))
      exact ⟨r, by simp [findJs, hb, hr], fun y hy => List.mem_cons_of_mem _ (hmem y hy)⟩

/-- The content type is found when the names and the values of the kept headers are
strings. -/
theorem detectContentType_total {hs : List HeaderEntry}
    (h : ∀ e ∈ hs, (∃ k, e.key = .str k) ∧ ∃ v, e.value = .str v) :
    ∃ ct, detectContentType hs = .ok ct := by
  have hp : ∀ e ∈ hs, ∃ b, isContentType e = .ok b := by
    intro e he
    obtain ⟨⟨k, hk⟩, -⟩ := h e he
    exact ⟨_, by unfold isContentType; rw [hk]; rfl⟩
  obtain ⟨r, hr, hmem⟩ := findJs_total hs hp
  unfold detectContentType
  rw [hr]
  cases r with
  | none => exact ⟨[], rfl⟩
  | some e =>
    obtain ⟨-, v, hv⟩ := h e (hmem e rfl)
    exact ⟨toLowerCase v, by simp only [ok_bind]; rw [hv]; rfl⟩

theorem optProp_orElse_obj (v : JVal) (k : JSString) :
    optProp (orElse v (.obj [])) k = optProp v k := by
  cases ht : truthy v with
  | true => rw [orElse_of_truthy _ ht]
  | false => rw [orElse_of_not_truthy _ ht, optProp_of_not_truthy k ht]; rfl

theorem getProp_orElse_obj (v : JVal) (k : JSString) :
    getProp (orElse v (.obj [])) k = .ok (optProp v k) := by
  rw [← optProp_orElse_obj v k]
  apply getProp_of_not_nullish
  cases ht : truthy v with
  | true => rw [orElse_of_truthy _ ht]; exact not_nullish_of_truthy ht
  | false => rw [orElse_of_not_truthy _ ht]; rfl

theorem mapJs_urlencodedEntry {items : List JVal} {es : List FormEntry}
    (h : mapJs urlencodedEntry items = .ok es) : es = items.map textEntry := by
  induction items generalizing es with
  | nil => simp only [mapJs] at h; cases h; rfl
  | cons fi rest ih =>
    simp only [mapJs] at h
    cases hn : fi.isNullish with
    | true =>
      have : urlencodedEntry fi = .error .typeError := by
        unfold urlencodedEntry; rw [getProp_of_nullish _ hn]; rfl
      rw [this] at h
      cases h
    | false =>
      have : urlencodedEntry fi = .ok (textEntry fi) := by
        unfold urlencodedEntry
        rw [getProp_of_not_nullish "name".toList hn, getProp_of_not_nullish "value".toList hn]
        rfl
      rw [this] at h
      cases hr : mapJs urlencodedEntry rest with
      | error e => rw [hr] at h; cases h
      | ok es' =>
        rw [hr] at h
        cases h
        rw [ih hr]
        rfl

theorem mapJs_formdataEntry {items : List JVal} {es : List FormEntry}
    (h : mapJs formdataEntry items = .ok es) : es = items.map fileOrTextEntry := by
  induction items generalizing es with
  | nil => simp only [mapJs] at h; cases h; rfl
  | cons fi rest ih =>
    simp only [mapJs] at h
    cases hn : fi.isNullish with
    | true =>
      have : formdataEntry fi = .error .typeError := by
        unfold formdataEntry; rw [getProp_of_nullish _ hn]; rfl
      rw [this] at h
      cases h
    | false =>
      have : formdataEntry fi = .ok (fileOrTextEntry fi) := by
        unfold formdataEntry
        rw [getProp_of_not_nullish "name".toList hn, getProp_of_not_nullish "value".toList hn,
          getProp_of_not_nullish "type".toList hn]
        rfl
      rw [this] at h
      cases hr : mapJs formdataEntry rest with
      | error e => rw [hr] at h; cases h
      | ok es' =>
        rw [hr] at h
        cases h
        rw [ih hr]
        rfl

theorem mapJs_urlencodedEntry_total {items : List JVal}
    (h : ∀ fi ∈ items, fi.isNullish = false) :
    mapJs urlencodedEntry items = .ok (items.map textEntry) := by
  induction items with
  | nil => rfl
  | cons fi rest ih =>
    have hn := h fi (List.mem_cons_self _ _)
    have : urlencodedEntry fi = .ok (textEntry fi) := by
      unfold urlencodedEntry
      rw [getProp_of_not_nullish "name".toList hn, getProp_of_not_nullish "value".toList hn]
      rfl
    simp only [mapJs, this, ih (fun x hx => h x (List.mem_cons_of_mem _ hx)), List.map_cons]

theorem mapJs_formdataEntry_total {items : List JVal}
    (h : ∀ fi ∈ items, fi.isNullish = false) :
    mapJs formdataEntry items = .ok (items.map fileOrTextEntry) := by
  induction items with
  | nil => rfl
  | cons fi rest ih =>
    have hn := h fi (List.mem_cons_self _ _)
    have : formdataEntry fi = .ok (fileOrTextEntry fi) := by
      unfold formdataEntry
      rw [getProp_of_not_nullish "name".toList hn, getProp_of_not_nullish "value".toList hn,
        getProp_of_not_nullish "type".toList hn]
      rfl
    simp only [mapJs, this, ih (fun x hx => h x (List.mem_cons_of_mem _ hx)), List.map_cons]

theorem orElse_arr (xs : List JVal) (b : JVal) : orElse (.arr xs) b = .arr xs := rfl

/-- The body when `formBody.items` is a non-empty array and the encoding has a text. -/
theorem buildBody_of_items {body : JVal} (ct : JSString) {fi : JVal} {fis : List JVal}
    {t : JSString}
    (hitems : optProp (optProp body "formBody".toList) "items".toList = .arr (fi :: fis))
    (henc : jsToString (optProp (optProp body "formBody".toList) "encoding".toList) = .ok t) :
    buildBody body ct =
      if includes "x-www-form-urlencoded".toList (toLowerCase t) then
        mapJs urlencodedEntry (fi :: fis) >>= fun entries =>
          .ok { mode := "urlencoded".toList, raw := .str [], urlencoded := some entries,
                formdata := none, options := none }
      else if includes "multipart/form-data".toList (toLowerCase t) then
        mapJs formdataEntry (fi :: fis) >>= fun entries =>
          .ok { mode := "formdata".toList, raw := .str [], urlencoded := none,
                formdata := some entries, options := none }
      else
        .ok { mode := "raw".toList
              raw := orElse (optProp body "textBody".toList) (.str [])
              urlencoded := none, formdata := none, options := some "text".toList } := by
  unfold buildBody
  dsimp only
  rw [optProp_orElse_obj, hitems, orElse_arr, getProp_orElse_obj]
  dsimp only
  simp only [ok_bind, regexTestI, henc]
  split_ifs <;> rfl

/-- The body is not built when the encoding has no text. -/
theorem buildBody_of_items_error {body : JVal} (ct : JSString) {fi : JVal} {fis : List JVal}
    {e : JsError}
    (hitems : optProp (optProp body "formBody".toList) "items".toList = .arr (fi :: fis))
    (henc : jsToString (optProp (optProp body "formBody".toList) "encoding".toList) =
      .error e) :
    buildBody body ct = .error e := by
  unfold buildBody
  dsimp only
  rw [optProp_orElse_obj, hitems, orElse_arr, getProp_orElse_obj]
  dsimp only
  simp only [ok_bind, regexTestI, henc]
  rfl

theorem eq_of_orElse_eq_cons {x : JVal} {fi : JVal} {fis : List JVal}
    (h : orElse x (.arr []) = .arr (fi :: fis)) : x = .arr (fi :: fis) := by
  cases ht : truthy x with
  | true => rwa [orElse_of_truthy _ ht] at h
  | false => rw [orElse_of_not_truthy _ ht] at h; cases h

/-- Without form items the body is always built. -/
theorem buildBody_of_no_items {body : JVal} (ct : JSString)
    (hitems : ∀ fi fis,
      optProp (optProp body "formBody".toList) "items".toList ≠ .arr (fi :: fis)) :
    ∃ b, buildBody body ct = .ok b := by
  unfold buildBody
  dsimp only
  rw [optProp_orElse_obj]
  have hv : ∀ fi fis,
      orElse (optProp (optProp body "formBody".toList) "items".toList) (.arr []) ≠
        .arr (fi :: fis) := fun fi fis h => hitems fi fis (eq_of_orElse_eq_cons h)
  revert hv
  generalize orElse (optProp (optProp body "formBody".toList) "items".toList) (.arr []) = v
  intro hv
  cases v with
  | arr xs =>
    cases xs with
    | nil => dsimp only; split_ifs <;> exact ⟨_, rfl⟩
    | cons fi fis => exact absurd rfl (hv fi fis)
  | _ => dsimp only; split_ifs <;> exact ⟨_, rfl⟩

/-! ## Returning -/

theorem orElse_str_of_stringOrFalsy {v : JVal} (d : JSString) (h : stringOrFalsy v = true) :
    ∃ t, orElse v (.str d) = .str t := by
  cases ht : truthy v with
  | false => exact ⟨d, orElse_of_not_truthy _ ht⟩
  | true =>
    rw [orElse_of_truthy _ ht]
    cases v <;> simp_all [stringOrFalsy, isString]

theorem isString_iff {v : JVal} : isString v = true ↔ ∃ t, v = .str t := by
  cases v <;> simp [isString]

/-! ## Searching a string -/

theorem includes_iff (pat s : JSString) :
    includes pat s = true ↔ ∃ pre post, s = pre ++ pat ++ post := by
  induction s with
  | nil =>
    simp only [includes, List.isEmpty_iff]
    constructor
    · rintro rfl; exact ⟨[], [], rfl⟩
    · rintro ⟨pre, post, h⟩
      have h' := congrArg List.length h
      simp only [List.length_nil, List.length_append] at h'
      exact List.length_eq_zero.1 (by omega)
  | cons d rest ih =>
    simp only [includes, Bool.or_eq_true, ih, List.isPrefixOf_iff_prefix]
    constructor
    · rintro (⟨post, hpost⟩ | ⟨pre, post, h⟩)
      · exact ⟨[], post, by simpa using hpost.symm⟩
      · exact ⟨d :: pre, post, by simp [h]⟩
    · rintro ⟨pre, post, h⟩
      cases pre with
      | nil => exact Or.inl ⟨post, by simpa using h.symm⟩
      | cons c pre' =>
        simp only [List.cons_append, List.cons.injEq] at h
        exact Or.inr ⟨pre', post, h.2⟩

/-- The search of the lower-cased text is the search without case. -/
theorem includes_toLowerCase_iff (pat s : JSString) :
    includes pat (toLowerCase s) = true ↔ ContainsIgnoreCase pat s := by
  rw [includes_iff]
  unfold ContainsIgnoreCase toLowerCase
  constructor
  · rintro ⟨pre, post, h⟩
    obtain ⟨l₁, post', hs, h₁, rfl⟩ := List.map_eq_append_iff.1 h
    obtain ⟨pre', mid, rfl, rfl, hmid⟩ := List.map_eq_append_iff.1 h₁
    exact ⟨pre', mid, post', hs, hmid⟩
  · rintro ⟨pre, mid, post, rfl, hmid⟩
    exact ⟨pre.map Char.toLower, post.map Char.toLower, by simp [hmid]⟩

/-! ## The parts of a returned item -/

theorem url_of_item {req : JVal} {item : RequestItem}
    (h : talendRequestToPostmanItem req = .ok item) :
    ∃ schemeName host path,
      schemeNameOf (uriOf req) = .str schemeName ∧ hostOf (uriOf req) = .str host ∧
      pathOf (uriOf req) = .str path ∧ item.request.url = urlOf schemeName host path := by
  obtain ⟨-, url, hs, ct, body, nm, h1, -, -, -, -, rfl⟩ := talendRequestToPostmanItem_eq_ok h
  exact buildUrl_eq_ok h1

theorem header_of_item {req : JVal} {item : RequestItem}
    (h : talendRequestToPostmanItem req = .ok item) :
    item.request.header = ((headersOf req).filter headerEnabled).map headerEntry := by
  obtain ⟨-, url, hs, ct, body, nm, -, h2, -, -, -, rfl⟩ := talendRequestToPostmanItem_eq_ok h
  exact ((collectHeaders_iff _ _).1 h2).2

theorem body_of_item {req : JVal} {item : RequestItem}
    (h : talendRequestToPostmanItem req = .ok item) :
    ∃ ct, buildBody (optProp req "body".toList) ct = .ok item.request.body := by
  obtain ⟨-, url, hs, ct, body, nm, -, -, -, h4, -, rfl⟩ := talendRequestToPostmanItem_eq_ok h
  exact ⟨ct, h4⟩

theorem orElse_str_cons (d : Char) (rest : JSString) (b : JVal) :
    orElse (.str (d :: rest)) b = .str (d :: rest) := rfl

theorem orElse_str_of_ne_nil {t : JSString} (b : JVal) (h : t ≠ []) :
    orElse (.str t) b = .str t := by
  cases t with
  | nil => exact absurd rfl h
  | cons d rest => rfl

theorem filter_headerEnabled_of_bool {hs : List JVal}
    (h : ∀ x ∈ hs, ∃ b, optProp x "enabled".toList = .bool b) :
    hs.filter headerEnabled = hs.filter enabledIsTrue := by
  apply List.filter_congr
  intro x hx
  obtain ⟨b, hb⟩ := h x hx
  unfold headerEnabled enabledIsTrue
  rw [hb]
  cases b <;> rfl

theorem fileOrTextEntry_type (fi : JVal) :
    ((fileOrTextEntry fi).type = "file".toList ↔ optProp fi "type".toList = .str "file".toList) ∧
    ((fileOrTextEntry fi).type ≠ "file".toList → (fileOrTextEntry fi).type = "text".toList) := by
  unfold fileOrTextEntry
  cases ht : optProp fi "type".toList with
  | str t =>
    by_cases he : t = "file".toList
    · subst he
      exact ⟨⟨fun _ => rfl, fun _ => rfl⟩, fun hc => absurd rfl hc⟩
    · have hb : strictEqStr (.str t) "file".toList = false := by
        simp only [strictEqStr]
        exact beq_false_of_ne he
      simp only [hb]
      refine ⟨⟨fun hc => (nomatch hc), fun hc => ?_⟩, fun _ => rfl⟩
      cases hc
      exact absurd rfl he
  | _ =>
    exact ⟨⟨fun hc => (nomatch hc), fun hc => (nomatch hc)⟩, fun _ => rfl⟩

/-! ## The body without form items -/

/-- Without form items the body is `rawBodyOf` of the content type and the text. -/
theorem buildBody_of_no_items_eq {body : JVal} (ct : JSString)
    (hitems : ∀ fi fis,
      optProp (optProp body "formBody".toList) "items".toList ≠ .arr (fi :: fis)) :
    buildBody body ct =
      .ok (rawBodyOf ct (orElse (optProp body "textBody".toList) (.str []))) := by
  unfold buildBody rawBodyOf
  dsimp only
  rw [optProp_orElse_obj]
  have hv : ∀ fi fis,
      orElse (optProp (optProp body "formBody".toList) "items".toList) (.arr []) ≠
        .arr (fi :: fis) := fun fi fis h => hitems fi fis (eq_of_orElse_eq_cons h)
  revert hv
  generalize orElse (optProp (optProp body "formBody".toList) "items".toList) (.arr []) = v
  intro hv
  cases v with
  | arr xs =>
    cases xs with
    | nil => dsimp only; split_ifs <;> rfl
    | cons fi fis => exact absurd rfl (hv fi fis)
  | _ => dsimp only; split_ifs <;> rfl

theorem content_type_and_body_of_item {req : JVal} {item : RequestItem}
    (h : talendRequestToPostmanItem req = .ok item) :
    ∃ ct, detectContentType item.request.header = .ok ct ∧
      buildBody (optProp req "body".toList) ct = .ok item.request.body := by
  obtain ⟨-, url, hs, ct, body, nm, -, -, h3, h4, -, rfl⟩ := talendRequestToPostmanItem_eq_ok h
  exact ⟨ct, h3, h4⟩

theorem truthy_orElse_str_nil (v : JVal) : truthy (orElse v (.str [])) = truthy v := by
  cases ht : truthy v with
  | true => rw [orElse_of_truthy _ ht, ht]
  | false => rw [orElse_of_not_truthy _ ht]; rfl

/-- The search `find` with a callback that may throw, when it returns, is the search
with a total test that agrees with the callback wherever the callback returns. -/
theorem findJs_eq_find {α : Type} {p : α → Js Bool} {q : α → Bool}
    (hpq : ∀ x b, p x = .ok b → q x = b) :
    ∀ (xs : List α) (r : Option α), findJs p xs = .ok r → r = xs.find? q := by
  intro xs
  induction xs with
  | nil =>
    intro r h
    simp only [findJs] at h
    cases h
    rfl
  | cons x rest ih =>
    intro r h
    simp only [findJs] at h
    cases hx : p x with
    | error e => rw [hx] at h; cases h
    | ok b =>
      rw [hx] at h
      have hq := hpq x b hx
      cases b with
      | true =>
        simp only at h
        cases h
        simp [List.find?_cons, hq]
      | false =>
        simp only at h
        rw [ih r h]
        simp [List.find?_cons, hq]

theorem isContentType_agrees (e : HeaderEntry) (b : Bool) (h : isContentType e = .ok b) :
    entryIsContentType e = b := by
  unfold isContentType at h
  unfold entryIsContentType
  cases hk : e.key with
  | str k =>
    rw [hk] at h
    cases h
    rfl
  | _ => rw [hk] at h; cases h

/-- The detected content type: empty when no kept header is a content type, else the
lower-cased value, a string, of the first one. -/
theorem detectContentType_eq_ok {hs : List HeaderEntry} {ct : JSString}
    (h : detectContentType hs = .ok ct) :
    (hs.find? entryIsContentType = none ∧ ct = []) ∨
    ∃ e v, hs.find? entryIsContentType = some e ∧ e.value = .str v ∧ ct = toLowerCase v := by
  unfold detectContentType at h
  cases hf : findJs isContentType hs with
  | error e => rw [hf] at h; cases h
  | ok r =>
    have hr := findJs_eq_find isContentType_agrees hs r hf
    rw [hf] at h
    simp only [ok_bind] at h
    cases r with
    | none =>
      cases h
      exact Or.inl ⟨hr.symm, rfl⟩
    | some e =>
      right
      simp only at h
      cases hv : e.value with
      | str v =>
        rw [hv] at h
        cases h
        exact ⟨e, v, hr.symm, hv, rfl⟩
      | _ => rw [hv] at h; cases h

theorem find_entry_of_headers (hs : List JVal) :
    (hs.map headerEntry).find? entryIsContentType =
      (hs.find? isContentTypeHeader).map headerEntry := by
  rw [List.find?_map]
  rfl

theorem rawBodyOf_options_json (ct : JSString) (tb : JVal) :
    (rawBodyOf ct tb).options = some "json".toList ↔
      includes "application/json".toList ct = true := by
  unfold rawBodyOf
  split_ifs with h1 h2
  · exact ⟨fun _ => h1, fun _ => rfl⟩
  · exact ⟨fun hc => absurd (Option.some.inj hc) (by decide), fun hc => absurd hc h1⟩
  · exact ⟨fun hc => (nomatch hc), fun hc => absurd hc h1⟩

/-- The detected content type of a returned item, in terms of the request: empty when
the request has no enabled content-type header, else the lower-cased value, a string,
of the first one. -/
theorem content_type_of_request {req : JVal} {item : RequestItem} {ct : JSString}
    (h : talendRequestToPostmanItem req = .ok item)
    (hct : detectContentType item.request.header = .ok ct) :
    (firstContentTypeHeader req = none ∧ ct = []) ∨
    ∃ hdr v, firstContentTypeHeader req = some hdr ∧ optProp hdr "value".toList = .str v ∧
      ct = toLowerCase v := by
  rw [header_of_item h] at hct
  unfold firstContentTypeHeader
  rcases detectContentType_eq_ok hct with ⟨hnone, hc⟩ | ⟨e, v, hsome, hv, hc⟩
  · left
    rw [find_entry_of_headers] at hnone
    exact ⟨by simpa using hnone, hc⟩
  · right
    rw [find_entry_of_headers] at hsome
    obtain ⟨hdr, hh, rfl⟩ := Option.map_eq_some'.1 hsome
    exact ⟨hdr, v, hh, hv, hc⟩

/-! ## Returning on the nodes of a type -/

theorem mapJs_total {α β : Type} {f : α → Js β} :
    ∀ (xs : List α), (∀ x ∈ xs, ∃ y, f x = .ok y) → ∃ ys, mapJs f xs = .ok ys := by
  intro xs
  induction xs with
  | nil => intro _; exact ⟨[], rfl⟩
  | cons x rest ih =>
    intro h
    obtain ⟨y, hy⟩ := h x (List.mem_cons_self _ _)
    obtain ⟨ys, hys⟩ := ih (fun x' hx' => h x' (List.mem_cons_of_mem _ hx'))
    exact ⟨y :: ys, by simp only [mapJs, hy, hys]⟩

/-- A node of an entity type is an object with an entity that is an object. -/
theorem not_nullish_of_hasEntityType {tag : JSString} {node : JVal}
    (h : hasEntityType tag node = true) :
    node.isNullish = false ∧ (entityOf node).isNullish = false := by
  unfold hasEntityType at h
  have he : (entityOf node).isNullish = false := by
    cases hv : entityOf node with
    | obj kvs => rfl
    | _ => rw [hv] at h; cases h
  refine ⟨?_, he⟩
  unfold entityOf at he
  cases node with
  | obj kvs => rfl
  | _ => cases he

theorem orElse_of_nullish {a : JVal} (b : JVal) (h : a.isNullish = true) : orElse a b = b := by
  cases a with
  | undefined => rfl
  | null => rfl
  | _ => cases h

theorem buildUrl_of_item {req : JVal} {item : RequestItem}
    (h : talendRequestToPostmanItem req = .ok item) :
    buildUrl (uriOf req) = .ok item.request.url := by
  obtain ⟨-, url, hs, ct, body, nm, h1, -, -, -, -, rfl⟩ := talendRequestToPostmanItem_eq_ok h
  exact h1

theorem name_and_method_of_item {req : JVal} {item : RequestItem}
    (h : talendRequestToPostmanItem req = .ok item) :
    itemName (optProp req "name".toList) (optProp req "id".toList) = .ok item.name ∧
    item.request.method =
      orElse (optProp (optProp req "method".toList) "name".toList) (.str "GET".toList) ∧
    item.response = [] := by
  obtain ⟨-, url, hs, ct, body, nm, -, -, -, -, h5, rfl⟩ := talendRequestToPostmanItem_eq_ok h
  exact ⟨h5, rfl, rfl⟩

theorem itemName_eq_ok {name id nm : JVal} (h : itemName name id = .ok nm) :
    (truthy name = true → nm = name) ∧
    (truthy name = false →
      ∃ idText, jsToString id = .ok idText ∧ nm = .str ("Request ".toList ++ idText)) := by
  unfold itemName at h
  cases ht : truthy name with
  | true =>
    rw [ht] at h
    simp only [if_true] at h
    exact ⟨fun _ => (Except.ok.inj h).symm, fun hc => (nomatch hc)⟩
  | false =>
    rw [ht] at h
    simp only [Bool.false_eq_true, if_false] at h
    refine ⟨fun hc => (nomatch hc), fun _ => ?_⟩
    cases hid : jsToString id with
    | error e => rw [hid] at h; cases h
    | ok idText =>
      rw [hid] at h
      exact ⟨idText, rfl, (Except.ok.inj h).symm⟩

/-! ## Two supplies of identifiers -/

/-- Two maps that draw, over the same list: when the second callback returns a related
result wherever the first returns, the second map returns related results wherever the
first map returns. -/
theorem mapDraw_rel {α β : Type} {f₁ f₂ : α → Nat → Js (β × Nat)} {R : β → β → Prop}
    (hrel : ∀ x m₁ y₁ k₁ m₂, f₁ x m₁ = .ok (y₁, k₁) →
      ∃ y₂, f₂ x m₂ = .ok (y₂, m₂ + 1) ∧ R y₁ y₂) :
    ∀ (xs : List α) (n₁ : Nat) (ys₁ : List β) (n₁' n₂ : Nat),
      mapDraw f₁ xs n₁ = .ok (ys₁, n₁') →
      ∃ ys₂, mapDraw f₂ xs n₂ = .ok (ys₂, n₂ + xs.length) ∧ List.Forall₂ R ys₁ ys₂ := by
  intro xs
  induction xs with
  | nil =>
    intro n₁ ys₁ n₁' n₂ h
    simp only [mapDraw] at h
    cases h
    exact ⟨[], rfl, List.Forall₂.nil⟩
  | cons x rest ih =>
    intro n₁ ys₁ n₁' n₂ h
    simp only [mapDraw] at h
    cases hfx : f₁ x n₁ with
    | error e => rw [hfx] at h; cases h
    | ok r =>
      obtain ⟨y₁, k₁⟩ := r
      rw [hfx] at h
      simp only at h
      cases hr : mapDraw f₁ rest k₁ with
      | error e => rw [hr] at h; cases h
      | ok r' =>
        obtain ⟨ys', m'⟩ := r'
        rw [hr] at h
        simp only at h
        cases h
        obtain ⟨y₂, hy₂, hR⟩ := hrel x n₁ y₁ k₁ n₂ hfx
        obtain ⟨ys₂, hys₂, hall⟩ := ih k₁ ys' n₁' (n₂ + 1) hr
        refine ⟨y₂ :: ys₂, ?_, List.Forall₂.cons hR hall⟩
        simp only [mapDraw, hy₂, hys₂, List.length_cons]
        rw [show n₂ + 1 + rest.length = n₂ + (rest.length + 1) by omega]

/-- The Project mapper with another supply returns the same collection except for the
identifier. -/
theorem talendProjectToPostmanCollection_rel (uuid₁ uuid₂ : Nat → JSString) (p : JVal)
    (m₁ : Nat) (c₁ : Collection) (k₁ m₂ : Nat)
    (h : talendProjectToPostmanCollection uuid₁ p m₁ = .ok (c₁, k₁)) :
    ∃ c₂, talendProjectToPostmanCollection uuid₂ p m₂ = .ok (c₂, m₂ + 1) ∧
      sameExceptId c₁ c₂ := by
  obtain ⟨hn, he, hch, -, hinfo, hitems⟩ :=
    (talendProjectToPostmanCollection_iff uuid₁ p m₁ c₁ k₁).1 h
  refine ⟨{ info :=
              { _postman_id := uuid₂ m₂
                name := orElse (optProp (entityOf p) "name".toList)
                  (.str "Unnamed Project".toList)
                schema := SCHEMA_V2_1
                _exporter_id := "talend2postman".toList }
            item := c₁.item },
    (talendProjectToPostmanCollection_iff uuid₂ p m₂ _ _).2 ⟨hn, he, hch, rfl, rfl, hitems⟩, ?_⟩
  unfold sameExceptId
  rw [hinfo]
  exact ⟨rfl, rfl, rfl, rfl⟩

theorem forall₂_sameExceptId_items {cols₁ cols₂ : List Collection}
    (h : List.Forall₂ sameExceptId cols₁ cols₂) :
    cols₁.length = cols₂.length ∧
    cols₁.map (fun c => c.item) = cols₂.map (fun c => c.item) ∧
    allRequestItems cols₁ = allRequestItems cols₂ := by
  induction h with
  | nil => exact ⟨rfl, rfl, rfl⟩
  | cons hab _ ih =>
    obtain ⟨hl, hm, hall⟩ := ih
    unfold allRequestItems at hall ⊢
    refine ⟨by simp [hl], by simp [hm, hab.2.2.2], ?_⟩
    simp only [List.flatMap_cons, hall, hab.2.2.2]

/-! ## The host list, the port and the path list -/

theorem urlOf_path_intercalate (schemeName host path : JSString) :
    List.intercalate "/".toList (urlOf schemeName host path).path = stripLeadingSlashes path := by
  unfold urlOf
  cases hsp : stripLeadingSlashes path with
  | nil => rfl
  | cons d rest =>
    simp only [List.isEmpty_cons, Bool.false_eq_true, if_false]
    exact intercalate_split '/' _

theorem urlOf_path_part (schemeName host path : JSString) :
    (if (urlOf schemeName host path).path.isEmpty then []
      else '/' :: List.intercalate "/".toList (urlOf schemeName host path).path) =
    (if (stripLeadingSlashes path).isEmpty then [] else '/' :: stripLeadingSlashes path) := by
  rw [urlOf_path_intercalate]
  unfold urlOf
  cases hsp : stripLeadingSlashes path with
  | nil => rfl
  | cons d rest =>
    have hne : (split '/' (d :: rest)).isEmpty = false := by
      cases hs : split '/' (d :: rest) with
      | nil => exact absurd hs (split_ne_nil _ _)
      | cons a b => rfl
    simp only [List.isEmpty_cons, Bool.false_eq_true, if_false, hne]

theorem urlOf_raw (schemeName host path : JSString) :
    (urlOf schemeName host path).raw =
      replaceFirst ':' schemeName ++ "://".toList ++ host ++
        (if (stripLeadingSlashes path).isEmpty then [] else '/' :: stripLeadingSlashes path) := by
  unfold urlOf
  cases hsp : stripLeadingSlashes path with
  | nil => simp
  | cons d rest => simp

/-- The first two segments of a host with two colons. -/
theorem split_two_colons {a b : JSString} (c : JSString) (ha : ':' ∉ a) (hb : ':' ∉ b) :
    split ':' (a ++ ':' :: (b ++ ':' :: c)) = a :: b :: split ':' c := by
  rw [split_append _ ha, split_append _ hb]

theorem urlOf_host (schemeName path : JSString) {host seg : JSString} {segs : List JSString}
    (hsp : split ':' host = seg :: segs) :
    (urlOf schemeName host path).host = [.str seg] := by
  unfold urlOf
  rw [hsp]
  rfl

theorem urlOf_port_of_empty (schemeName path : JSString) {host seg : JSString}
    {segs : List JSString} (hsp : split ':' host = seg :: [] :: segs) :
    (urlOf schemeName host path).port = none := by
  unfold urlOf
  rw [hsp]
  rfl

theorem urlOf_port_of_cons (schemeName path : JSString) {host seg : JSString} {d : Char}
    {ds : JSString} {segs : List JSString} (hsp : split ':' host = seg :: (d :: ds) :: segs) :
    (urlOf schemeName host path).port = some (.str (d :: ds)) := by
  unfold urlOf
  rw [hsp]
  rfl

/-! ## Returning, exactly -/

theorem stringOrFalsy_iff (v : JVal) (d : JSString) :
    stringOrFalsy v = true ↔ ∃ t, orElse v (.str d) = .str t := by
  constructor
  · exact orElse_str_of_stringOrFalsy d
  · rintro ⟨t, ht⟩
    cases hv : truthy v with
    | false => simp [stringOrFalsy, hv]
    | true =>
      rw [orElse_of_truthy _ hv] at ht
      rw [ht]
      rfl

/-- The URL is built exactly when scheme name, host and path are strings or falsy. -/
theorem buildUrl_returns_iff (uri : JVal) :
    (∃ url, buildUrl uri = .ok url) ↔
      stringOrFalsy (optProp (optProp uri "scheme".toList) "name".toList) = true ∧
      stringOrFalsy (optProp uri "host".toList) = true ∧
      stringOrFalsy (optProp uri "path".toList) = true := by
  rw [stringOrFalsy_iff _ "http".toList, stringOrFalsy_iff _ "localhost".toList,
    stringOrFalsy_iff _ []]
  constructor
  · rintro ⟨url, h⟩
    obtain ⟨sn, host, path, hs, hh, hp, -⟩ := buildUrl_eq_ok h
    exact ⟨⟨sn, hs⟩, ⟨host, hh⟩, ⟨path, hp⟩⟩
  · rintro ⟨⟨sn, hs⟩, ⟨host, hh⟩, ⟨path, hp⟩⟩
    exact ⟨_, buildUrl_of_strings hs hh hp⟩

theorem detectContentType_cons (h : JVal) (rest : List HeaderEntry) :
    detectContentType (headerEntry h :: rest) =
      match optProp h "name".toList with
      | .str k =>
        if toLowerCase k == "content-type".toList then
          match optProp h "value".toList with
          | .str v => .ok (toLowerCase v)
          | _ => .error .typeError
        else detectContentType rest
      | _ => .error .typeError := by
  unfold detectContentType
  simp only [findJs, isContentType, headerEntry]
  cases hk : optProp h "name".toList with
  | str k =>
    simp only [asString, ok_bind, pure_eq_ok]
    cases hb : (toLowerCase k == "content-type".toList) with
    | true =>
      simp only [ok_bind, if_true]
      cases hv : optProp h "value".toList <;> rfl
    | false => rfl
  | _ => rfl

/-- The content type is detected exactly when it is readable. -/
theorem detectContentType_returns_iff (hs : List JVal) :
    (∃ ct, detectContentType (hs.map headerEntry) = .ok ct) ↔
      contentTypeReadable hs = true := by
  induction hs with
  | nil => exact ⟨fun _ => rfl, fun _ => ⟨[], rfl⟩⟩
  | cons h rest ih =>
    rw [List.map_cons, detectContentType_cons]
    unfold contentTypeReadable
    cases hk : optProp h "name".toList with
    | str k =>
      dsimp only
      cases hb : (toLowerCase k == "content-type".toList) with
      | true =>
        simp only [if_true]
        cases hv : optProp h "value".toList with
        | str v => exact ⟨fun _ => rfl, fun _ => ⟨_, rfl⟩⟩
        | _ => exact ⟨fun hc => (by obtain ⟨ct, hct⟩ := hc; cases hct), fun hc => (by cases hc)⟩
      | false =>
        simp only [Bool.false_eq_true, if_false]
        exact ih
    | _ => exact ⟨fun hc => (by obtain ⟨ct, hct⟩ := hc; cases hct), fun hc => (by cases hc)⟩

theorem mapJs_urlencodedEntry_returns_iff (items : List JVal) :
    (∃ es, mapJs urlencodedEntry items = .ok es) ↔ ∀ fi ∈ items, fi.isNullish = false := by
  constructor
  · rintro ⟨es, h⟩
    induction items generalizing es with
    | nil => intro fi hfi; cases hfi
    | cons x rest ih =>
      simp only [mapJs] at h
      cases hn : x.isNullish with
      | true =>
        have : urlencodedEntry x = .error .typeError := by
          unfold urlencodedEntry; rw [getProp_of_nullish _ hn]; rfl
        rw [this] at h
        cases h
      | false =>
        cases hx : urlencodedEntry x with
        | error e => rw [hx] at h; cases h
        | ok y =>
          rw [hx] at h
          cases hr : mapJs urlencodedEntry rest with
          | error e => rw [hr] at h; cases h
          | ok ys =>
            intro fi hfi
            rcases List.mem_cons.1 hfi with rfl | hfi'
            · exact hn
            · exact ih ys hr fi hfi'
  · intro h
    exact ⟨_, mapJs_urlencodedEntry_total h⟩

theorem mapJs_formdataEntry_returns_iff (items : List JVal) :
    (∃ es, mapJs formdataEntry items = .ok es) ↔ ∀ fi ∈ items, fi.isNullish = false := by
  constructor
  · rintro ⟨es, h⟩
    induction items generalizing es with
    | nil => intro fi hfi; cases hfi
    | cons x rest ih =>
      simp only [mapJs] at h
      cases hn : x.isNullish with
      | true =>
        have : formdataEntry x = .error .typeError := by
          unfold formdataEntry; rw [getProp_of_nullish _ hn]; rfl
        rw [this] at h
        cases h
      | false =>
        cases hx : formdataEntry x with
        | error e => rw [hx] at h; cases h
        | ok y =>
          rw [hx] at h
          cases hr : mapJs formdataEntry rest with
          | error e => rw [hr] at h; cases h
          | ok ys =>
            intro fi hfi
            rcases List.mem_cons.1 hfi with rfl | hfi'
            · exact hn
            · exact ih ys hr fi hfi'
  · intro h
    exact ⟨_, mapJs_formdataEntry_total h⟩

theorem bind_ok_returns_iff {α β : Type} (x : Js α) (g : α → β) :
    (∃ b, (x >>= fun a => (Except.ok (g a) : Js β)) = .ok b) ↔ ∃ a, x = .ok a := by
  cases x with
  | error e => exact ⟨fun hc => (by obtain ⟨b, hb⟩ := hc; cases hb), fun hc => (by obtain ⟨a, ha⟩ := hc; cases ha)⟩
  | ok a => exact ⟨fun _ => ⟨a, rfl⟩, fun _ => ⟨g a, rfl⟩⟩

theorem itemName_returns_iff (name id : JVal) :
    (∃ nm, itemName name id = .ok nm) ↔ (truthy name || hasText id) = true := by
  unfold itemName hasText
  cases ht : truthy name with
  | true => exact ⟨fun _ => rfl, fun _ => ⟨_, rfl⟩⟩
  | false =>
    simp only [Bool.false_eq_true, if_false, Bool.false_or]
    cases hid : jsToString id with
    | error e => exact ⟨fun hc => (by obtain ⟨b, hb⟩ := hc; cases hb), fun hc => (by cases hc)⟩
    | ok t => exact ⟨fun _ => rfl, fun _ => ⟨_, rfl⟩⟩

/-- The body is built exactly when the form is readable, whatever the content type. -/
theorem buildBody_returns_iff (req : JVal) (ct : JSString) :
    (∃ b, buildBody (optProp req "body".toList) ct = .ok b) ↔ formReadable req = true := by
  unfold formReadable formItemsOf encodingOf formBodyOf
  cases hi : optProp (optProp (optProp req "body".toList) "formBody".toList) "items".toList with
  | arr xs =>
    cases xs with
    | nil =>
      exact ⟨fun _ => rfl,
        fun _ => buildBody_of_no_items ct (fun fi fis hc => by rw [hi] at hc; cases hc)⟩
    | cons fi fis =>
      dsimp only
      cases ht : jsToString
          (optProp (optProp (optProp req "body".toList) "formBody".toList)
            "encoding".toList) with
      | error e =>
        rw [buildBody_of_items_error ct hi ht]
        exact ⟨fun hc => (by obtain ⟨b, hb⟩ := hc; cases hb), fun hc => (by cases hc)⟩
      | ok t =>
        rw [buildBody_of_items ct hi ht]
        dsimp only
        cases h1 : includes "x-www-form-urlencoded".toList (toLowerCase t) with
        | true =>
          simp only [if_true, Bool.true_or]
          rw [bind_ok_returns_iff, mapJs_urlencodedEntry_returns_iff]
          simp [List.all_eq_true]
        | false =>
          cases h2 : includes "multipart/form-data".toList (toLowerCase t) with
          | true =>
            simp only [Bool.false_eq_true, if_false, if_true, Bool.false_or]
            rw [bind_ok_returns_iff, mapJs_formdataEntry_returns_iff]
            simp [List.all_eq_true]
          | false =>
            simp only [Bool.false_eq_true, if_false, Bool.false_or]
            exact ⟨fun _ => trivial, fun _ => ⟨_, rfl⟩⟩
  | _ =>
    exact ⟨fun _ => rfl,
      fun _ => buildBody_of_no_items ct (fun fi fis hc => by rw [hi] at hc; cases hc)⟩

/-- The request mapper returns exactly on the accepted requests. -/
theorem talendRequestToPostmanItem_returns_iff (req : JVal) :
    (∃ item, talendRequestToPostmanItem req = .ok item) ↔ requestAccepted req = true := by
  simp only [requestAccepted, Bool.and_eq_true, Bool.not_eq_true', List.all_eq_true]
  constructor
  · rintro ⟨item, h⟩
    obtain ⟨hn, url, hs, ct, body, nm, h1, h2, h3, h4, h5, -⟩ :=
      talendRequestToPostmanItem_eq_ok h
    obtain ⟨hu1, hu2, hu3⟩ := (buildUrl_returns_iff _).1 ⟨url, h1⟩
    obtain ⟨hall, hhs⟩ := (collectHeaders_iff _ _).1 h2
    rw [hhs] at h3
    exact ⟨⟨⟨⟨⟨⟨⟨hn, hu1⟩, hu2⟩, hu3⟩, hall⟩, (detectContentType_returns_iff _).1 ⟨ct, h3⟩⟩,
      (buildBody_returns_iff req ct).1 ⟨body, h4⟩⟩, (itemName_returns_iff _ _).1 ⟨nm, h5⟩⟩
  · rintro ⟨⟨⟨⟨⟨⟨⟨hn, hu1⟩, hu2⟩, hu3⟩, hall⟩, hct⟩, hform⟩, hname⟩
    obtain ⟨url, h1⟩ := (buildUrl_returns_iff (optProp req "uri".toList)).2 ⟨hu1, hu2, hu3⟩
    have h2 := (collectHeaders_iff (optProp req "headers".toList) _).2 ⟨hall, rfl⟩
    obtain ⟨ct, h3⟩ := (detectContentType_returns_iff _).2 hct
    obtain ⟨body, h4⟩ := (buildBody_returns_iff req ct).2 hform
    obtain ⟨nm, h5⟩ := (itemName_returns_iff _ _).2 hname
    exact ⟨_, talendRequestToPostmanItem_of_parts hn h1 h2 h3 h4 h5⟩

/-- A result that is no item is the `TypeError`. -/
theorem eq_error_of_not_returns {α : Type} {x : Js α} (h : ¬ ∃ a, x = .ok a) :
    x = .error .typeError := by
  cases x with
  | error e => cases e; rfl
  | ok a => exact absurd ⟨a, rfl⟩ h

theorem rawBodyOf_orElse (ct : JSString) (tb : JVal) :
    (rawBodyOf ct (orElse tb (.str []))).mode = "raw".toList ∧
    (rawBodyOf ct (orElse tb (.str []))).urlencoded = none ∧
    (rawBodyOf ct (orElse tb (.str []))).formdata = none ∧
    (rawBodyOf ct (orElse tb (.str []))).raw = orElse tb (.str []) := by
  unfold rawBodyOf
  split_ifs with h1 h2
  · exact ⟨rfl, rfl, rfl, rfl⟩
  · exact ⟨rfl, rfl, rfl, rfl⟩
  · refine ⟨rfl, rfl, rfl, ?_⟩
    rw [truthy_orElse_str_nil] at h2
    rw [orElse_of_not_truthy _ (by simpa using h2)]

/-- The body of a returned item of a request without form items. -/
theorem body_of_item_without_items {req : JVal} {item : RequestItem}
    (h : talendRequestToPostmanItem req = .ok item)
    (hno : ∀ fi fis, formItemsOf req ≠ .arr (fi :: fis)) :
    item.request.body.mode = "raw".toList ∧ item.request.body.urlencoded = none ∧
    item.request.body.formdata = none ∧
    item.request.body.raw = orElse (textBodyOf req) (.str []) := by
  obtain ⟨ct, -, hb⟩ := content_type_and_body_of_item h
  unfold formItemsOf formBodyOf at hno
  rw [buildBody_of_no_items_eq ct hno] at hb
  rw [← Except.ok.inj hb]
  exact rawBodyOf_orElse ct _

/-- The URL of a returned item when parts of `uri` are falsy. -/
theorem url_defaults_of_item {req : JVal} {item : RequestItem}
    (h : talendRequestToPostmanItem req = .ok item) :
    (truthy (optProp (optProp (uriOf req) "scheme".toList) "name".toList) = false →
      item.request.url.protocol = "http".toList) ∧
    (truthy (optProp (uriOf req) "host".toList) = false →
      item.request.url.host = [.str "localhost".toList] ∧ item.request.url.port = none) ∧
    (truthy (optProp (uriOf req) "path".toList) = false → item.request.url.path = []) ∧
    (truthy (optProp (uriOf req) "host".toList) = false →
      truthy (optProp (uriOf req) "path".toList) = false →
      item.request.url.raw =
        item.request.url.protocol ++ "://".toList ++ "localhost".toList) := by
  obtain ⟨sn, host, path, hs, hh, hp, hurl⟩ := url_of_item h
  unfold schemeNameOf at hs
  unfold hostOf at hh
  unfold pathOf at hp
  refine ⟨?_, ?_, ?_, ?_⟩
  · intro hf
    rw [orElse_of_not_truthy _ hf] at hs
    cases hs
    rw [hurl]
    rfl
  · intro hf
    rw [orElse_of_not_truthy _ hf] at hh
    cases hh
    rw [hurl]
    exact ⟨rfl, rfl⟩
  · intro hf
    rw [orElse_of_not_truthy _ hf] at hp
    cases hp
    rw [hurl]
    rfl
  · intro hf1 hf2
    rw [orElse_of_not_truthy _ hf1] at hh
    rw [orElse_of_not_truthy _ hf2] at hp
    cases hh
    cases hp
    rw [hurl]
    rfl

/-! ## The claims -/

/-- C1: `convertTalendToPostman` returns the Project mapper applied, in input order, to
the top-level nodes whose entity type is exactly `"Project"`.  When it returns, the
number of collections is the number of such nodes and the `i`-th collection is the
image of the `i`-th Project node (with the `i`-th identifier drawn); every other node is
dropped.  A document of the accepted shape without a Project node, or without an
`entities` list, gives the empty sequence, and on a document of the accepted shape the
converter returns whenever the Project mapper returns on each Project node. -/
theorem convertTalendToPostman_maps_projects (uuid : Nat → JSString) (doc : JVal) (n : Nat) :
    (∀ cols n', convertTalendToPostman uuid doc n = .ok (cols, n') →
      cols.length = (projectNodes doc).length ∧ n' = n + (projectNodes doc).length ∧
      ∀ (i : Nat) (hp : i < (projectNodes doc).length) (hc : i < cols.length),
        talendProjectToPostmanCollection uuid ((projectNodes doc).get ⟨i, hp⟩) (n + i) =
          .ok (cols.get ⟨i, hc⟩, n + i + 1)) ∧
    (documentShape doc = true → projectNodes doc = [] →
      convertTalendToPostman uuid doc n = .ok ([], n)) ∧
    (documentShape doc = true →
      (∀ p ∈ projectNodes doc, ∀ m, ∃ c,
        talendProjectToPostmanCollection uuid p m = .ok (c, m + 1)) →
      ∃ cols, convertTalendToPostman uuid doc n = .ok (cols, n + (projectNodes doc).length)) := by
  refine ⟨?_, ?_, ?_⟩
  · intro cols n' h
    have hm := ((convertTalendToPostman_iff uuid doc n (cols, n')).1 h).2
    exact mapDraw_get
      (fun x m y m' hx => ((talendProjectToPostmanCollection_iff uuid x m y m').1 hx).2.2.2.1)
      _ _ _ _ hm
  · intro hshape hnone
    refine (convertTalendToPostman_iff uuid doc n ([], n)).2 ⟨hshape, ?_⟩
    rw [hnone]
    rfl
  · intro hshape hall
    obtain ⟨cols, hcols⟩ := mapDraw_total (projectNodes doc) hall n
    exact ⟨cols, (convertTalendToPostman_iff uuid doc n _).2 ⟨hshape, hcols⟩⟩

/-- C1 on the sample documents: two Project nodes out of three top-level nodes give two
collections; no Project node gives the empty sequence. -/
theorem convertTalendToPostman_maps_projects_witness :
    (topLevelNodes sampleDocument).length = 3 ∧
    (projectNodes sampleDocument).length = 2 ∧
    (∃ cols, convertTalendToPostman sampleUuid sampleDocument 0 = .ok (cols, 2) ∧
      cols.length = 2) ∧
    convertTalendToPostman sampleUuid sampleDocumentNoProject 0 = .ok ([], 0) ∧
    convertTalendToPostman sampleUuid (.obj []) 0 = .ok ([], 0) :=
  ⟨rfl, rfl,
    ⟨_, rfl, ((convertTalendToPostman_maps_projects sampleUuid sampleDocument 0).1 _ _ rfl).1⟩,
    (convertTalendToPostman_maps_projects sampleUuid sampleDocumentNoProject 0).2.1 rfl rfl,
    (convertTalendToPostman_maps_projects sampleUuid (.obj []) 0).2.1 rfl rfl⟩

/-- C2: when `convertTalendToPostman` returns, the request items of its output,
collection by collection and folder by folder, are `talendRequestToPostmanItem` applied,
in input order, to exactly the Request entities that are children of a Service child of
a top-level Project node.  So there are as many items as such entities, and every item
is the image of one of them: a Request anywhere else produces no item. -/
theorem convertTalendToPostman_request_items (uuid : Nat → JSString) (doc : JVal) (n : Nat)
    (cols : List Collection) (n' : Nat)
    (h : convertTalendToPostman uuid doc n = .ok (cols, n')) :
    mapJs talendRequestToPostmanItem (reachableRequests doc) = .ok (allRequestItems cols) ∧
    (allRequestItems cols).length = (reachableRequests doc).length ∧
    ∀ item ∈ allRequestItems cols,
      ∃ e ∈ reachableRequests doc, talendRequestToPostmanItem e = .ok item := by
  have hm := ((convertTalendToPostman_iff uuid doc n (cols, n')).1 h).2
  have key : mapJs talendRequestToPostmanItem (reachableRequests doc) =
      .ok (allRequestItems cols) :=
    mapDraw_flatMap (fun _ _ _ _ hx => collection_items hx) _ _ _ _ hm
  exact ⟨key, mapJs_length key, mapJs_mem _ _ key⟩

/-- C2 on the sample document: of its six Request nodes, the two that are children of
a Service of a Project give the two items of the output, in order. -/
theorem convertTalendToPostman_request_items_witness :
    reachableRequests sampleDocument =
      [ .obj [prop "type" (lit "Request"), prop "name" (lit "r1")],
        .obj [prop "type" (lit "Request"), prop "name" (lit "r2")] ] ∧
    ∃ cols, convertTalendToPostman sampleUuid sampleDocument 0 = .ok (cols, 2) ∧
      (allRequestItems cols).map (fun item => item.name) = [lit "r1", lit "r2"] ∧
      mapJs talendRequestToPostmanItem (reachableRequests sampleDocument) =
        .ok (allRequestItems cols) :=
  ⟨rfl, _, rfl, rfl,
    (convertTalendToPostman_request_items sampleUuid sampleDocument 0 _ 2 rfl).1⟩

/-- C3 (amended): `talendRequestToPostmanItem` returns a request item exactly on the
accepted request entities, and raises a `TypeError` on the others.  A request entity is
accepted when it is not `null`; `uri.scheme.name`, `uri.host` and `uri.path` are each a
string or falsy; no header is `null`, every enabled header up to and including the first
one named `content-type` has a string name, and that header has a string value; when
`formBody.items` is a non-empty array the encoding has a text and, if the text matches
the urlencoded or the multipart pattern, no item is `null`; and the name is truthy or
the `id` has a text.  In a returned item every missing, `null` or falsy field has its
default: the name `Request ` and the text of the `id`, the method `GET`, the protocol
`http`, the host `localhost` without port, the empty path, no headers, and a raw body
whose text is `textBody` or the empty string. -/
theorem talendRequestToPostmanItem_returns (req : JVal) :
    ((∃ item, talendRequestToPostmanItem req = .ok item) ↔ requestAccepted req = true) ∧
    (requestAccepted req = false → talendRequestToPostmanItem req = .error .typeError) ∧
    ∀ item, talendRequestToPostmanItem req = .ok item →
      (truthy (optProp req "name".toList) = false →
        ∃ idText, jsToString (optProp req "id".toList) = .ok idText ∧
          item.name = .str ("Request ".toList ++ idText)) ∧
      (truthy (optProp (optProp req "method".toList) "name".toList) = false →
        item.request.method = .str "GET".toList) ∧
      (truthy (optProp (optProp (uriOf req) "scheme".toList) "name".toList) = false →
        item.request.url.protocol = "http".toList) ∧
      (truthy (optProp (uriOf req) "host".toList) = false →
        item.request.url.host = [.str "localhost".toList] ∧ item.request.url.port = none) ∧
      (truthy (optProp (uriOf req) "path".toList) = false → item.request.url.path = []) ∧
      (truthy (optProp (uriOf req) "host".toList) = false →
        truthy (optProp (uriOf req) "path".toList) = false →
        item.request.url.raw =
          item.request.url.protocol ++ "://".toList ++ "localhost".toList) ∧
      (headersOf req = [] → item.request.header = []) ∧
      ((∀ fi fis, formItemsOf req ≠ .arr (fi :: fis)) →
        item.request.body.mode = "raw".toList ∧ item.request.body.urlencoded = none ∧
        item.request.body.formdata = none ∧
        item.request.body.raw = orElse (textBodyOf req) (.str []) ∧
        (truthy (textBodyOf req) = false → item.request.body.raw = .str [])) ∧
      item.response = [] := by
  refine ⟨talendRequestToPostmanItem_returns_iff req, ?_, ?_⟩
  · intro hf
    apply eq_error_of_not_returns
    intro hc
    rw [(talendRequestToPostmanItem_returns_iff req).1 hc] at hf
    cases hf
  · intro item h
    obtain ⟨hname, hmethod, hresp⟩ := name_and_method_of_item h
    obtain ⟨hu1, hu2, hu3, hu4⟩ := url_defaults_of_item h
    refine ⟨(itemName_eq_ok hname).2, ?_, hu1, hu2, hu3, hu4, ?_, ?_, hresp⟩
    · intro hf
      rw [hmethod, orElse_of_not_truthy _ hf]
    · intro he
      rw [header_of_item h, he]
      rfl
    · intro hno
      obtain ⟨hb1, hb2, hb3, hb4⟩ := body_of_item_without_items h hno
      refine ⟨hb1, hb2, hb3, hb4, ?_⟩
      intro hf
      rw [hb4, orElse_of_not_truthy _ hf]

/-- C3 (amended) on five requests: the empty object is accepted and is mapped to the
item of the defaults; the requests `sparseRequest` and `oddRequest`, whose fields are
missing, `null` or of another type, are accepted and mapped to an item; the request
with a numeric host and the request with a nameless first header are not accepted. -/
theorem talendRequestToPostmanItem_returns_witness :
    (requestAccepted (.obj []) = true ∧
      ∃ item, talendRequestToPostmanItem (.obj []) = .ok item) ∧
    talendRequestToPostmanItem (.obj []) = .ok
      { name := lit "Request undefined"
        request :=
          { method := lit "GET"
            header := []
            body := { mode := "raw".toList, raw := lit "", urlencoded := none,
                      formdata := none, options := none }
            url := { raw := "http://localhost".toList, protocol := "http".toList,
                     host := [lit "localhost"], path := [], port := none } }
        response := [] } ∧
    (requestAccepted sparseRequest = true ∧
      ∃ item, talendRequestToPostmanItem sparseRequest = .ok item) ∧
    (requestAccepted oddRequest = true ∧
      ∃ item, talendRequestToPostmanItem oddRequest = .ok item ∧
        item.name = lit "Request 1,a") ∧
    (requestAccepted requestNumericHost = false ∧
      talendRequestToPostmanItem requestNumericHost = .error .typeError) ∧
    (requestAccepted requestHeaderWithoutName = false ∧
      talendRequestToPostmanItem requestHeaderWithoutName = .error .typeError) :=
  ⟨⟨rfl, (talendRequestToPostmanItem_returns (.obj [])).1.2 rfl⟩, rfl,
   ⟨rfl, (talendRequestToPostmanItem_returns sparseRequest).1.2 rfl⟩,
   ⟨rfl, _, rfl, rfl⟩,
   ⟨rfl, (talendRequestToPostmanItem_returns requestNumericHost).2.1 rfl⟩,
   ⟨rfl, (talendRequestToPostmanItem_returns requestHeaderWithoutName).2.1 rfl⟩⟩

/-- C3 as stated fails: on a request whose enabled header has no name, and on a request
whose host is a number, the function raises a `TypeError`. -/
theorem talendRequestToPostmanItem_raises :
    talendRequestToPostmanItem requestHeaderWithoutName = .error .typeError ∧
    talendRequestToPostmanItem requestNumericHost = .error .typeError :=
  ⟨rfl, rfl⟩

/-- C4: the raw URL of a returned item is `protocol ++ "://" ++ host`, followed by
`"/" ++ trimmedPath` exactly when `trimmedPath` is not empty, where `host` is the whole
`uri.host` (or `localhost`), any `:port` included, and `trimmedPath` is `uri.path` (or the
empty string) without its leading slashes. -/
theorem raw_url_of_scheme_host_path (req : JVal) (item : RequestItem)
    (h : talendRequestToPostmanItem req = .ok item) :
    ∃ host path trimmedPath,
      hostOf (uriOf req) = .str host ∧ pathOf (uriOf req) = .str path ∧
      (∃ k, path = List.replicate k '/' ++ trimmedPath) ∧ trimmedPath.head? ≠ some '/' ∧
      (trimmedPath = [] →
        item.request.url.raw = item.request.url.protocol ++ "://".toList ++ host) ∧
      (trimmedPath ≠ [] →
        item.request.url.raw =
          item.request.url.protocol ++ "://".toList ++ host ++ "/".toList ++ trimmedPath) := by
  obtain ⟨schemeName, host, path, -, hh, hp, hurl⟩ := url_of_item h
  refine ⟨host, path, stripLeadingSlashes path, hh, hp, (stripLeadingSlashes_spec path).1,
    (stripLeadingSlashes_spec path).2, ?_, ?_⟩
  · intro he
    rw [hurl]
    simp [urlOf, he]
  · intro hne
    rw [hurl]
    have : (stripLeadingSlashes path).isEmpty = false := by
      cases hsp : stripLeadingSlashes path with
      | nil => exact absurd hsp hne
      | cons d rest => rfl
    simp [urlOf, this]

/-- C4 on the sample request: the raw URL keeps the port that the host list drops. -/
theorem raw_url_of_scheme_host_path_witness :
    ∃ item, talendRequestToPostmanItem sampleRequest = .ok item ∧
      item.request.url.raw = "https://example.com:8080/v1/items".toList ∧
      item.request.url.host = [lit "example.com"] ∧
      ∃ host path trimmedPath,
        hostOf (uriOf sampleRequest) = .str host ∧ pathOf (uriOf sampleRequest) = .str path ∧
        (∃ k, path = List.replicate k '/' ++ trimmedPath) ∧ trimmedPath.head? ≠ some '/' ∧
        (trimmedPath = [] →
          item.request.url.raw = item.request.url.protocol ++ "://".toList ++ host) ∧
        (trimmedPath ≠ [] →
          item.request.url.raw =
            item.request.url.protocol ++ "://".toList ++ host ++ "/".toList ++ trimmedPath) :=
  ⟨_, rfl, rfl, rfl, raw_url_of_scheme_host_path sampleRequest _ rfl⟩

/-- C5 (amended): for a host `h ++ ":" ++ p` in which neither `h` nor `p` contains a
colon and `p` is not empty, the URL of a returned item has `host = [h]` and `port = p`;
for a non-empty host without a colon it has `host = [host]` and no port. -/
theorem host_and_port_of_host (req : JVal) (item : RequestItem)
    (h : talendRequestToPostmanItem req = .ok item) :
    (∀ hn p, optProp (uriOf req) "host".toList = .str (hn ++ ':' :: p) →
      ':' ∉ hn → ':' ∉ p → p ≠ [] →
      item.request.url.host = [.str hn] ∧ item.request.url.port = some (.str p)) ∧
    (∀ host, optProp (uriOf req) "host".toList = .str host → host ≠ [] → ':' ∉ host →
      item.request.url.host = [.str host] ∧ item.request.url.port = none) := by
  obtain ⟨schemeName, host', path, -, hh, -, hurl⟩ := url_of_item h
  unfold hostOf at hh
  constructor
  · intro hn p hreq hhn hp hpne
    rw [hreq, orElse_str_of_ne_nil _ (by simp)] at hh
    cases hh
    rw [hurl]
    have hsplit : split ':' (hn ++ ':' :: p) = [hn, p] := by
      rw [split_append _ hhn, split_of_not_mem hp]
    cases p with
    | nil => exact absurd rfl hpne
    | cons d rest => simp [urlOf, hsplit, elemAt, truthy]
  · intro host hreq hne hc
    rw [hreq, orElse_str_of_ne_nil _ hne] at hh
    cases hh
    rw [hurl]
    simp [urlOf, split_of_not_mem hc, elemAt, truthy]

/-- C5 (amended) on two requests: `example.com:8080` gives the host `example.com` and
the port `8080`; `example.com` gives the whole host and no port. -/
theorem host_and_port_of_host_witness :
    (∃ item, talendRequestToPostmanItem sampleRequest = .ok item ∧
      item.request.url.host = [lit "example.com"] ∧
      item.request.url.port = some (lit "8080")) ∧
    (∃ item, talendRequestToPostmanItem (requestWithHost "example.com") = .ok item ∧
      item.request.url.host = [lit "example.com"] ∧ item.request.url.port = none) :=
  ⟨⟨_, rfl,
      (host_and_port_of_host sampleRequest _ rfl).1 "example.com".toList "8080".toList rfl
        (by decide) (by decide) (by decide)⟩,
   ⟨_, rfl,
      (host_and_port_of_host (requestWithHost "example.com") _ rfl).2 "example.com".toList rfl
        (by decide) (by decide)⟩⟩

/-- C5 as stated fails in three ways.  The host `a:b:c` is `a ++ ":" ++ b:c`, and the
output port is `b`, not `b:c` (and the output host is `a`, so the reading
`a:b ++ ":" ++ c` fails too).  The host `host:` is `host ++ ":" ++ ""`, and the output has
no port.  The empty host has no colon, and the output host is `localhost`. -/
theorem host_and_port_counterexample :
    (∃ hn p item, "a:b:c".toList = hn ++ ':' :: p ∧
      talendRequestToPostmanItem (requestWithHost "a:b:c") = .ok item ∧
      item.request.url.host = [lit "a"] ∧ item.request.url.port = some (lit "b") ∧
      ¬ (item.request.url.port = some (.str p) ∧ item.request.url.host = [.str hn])) ∧
    (∃ hn p item, "host:".toList = hn ++ ':' :: p ∧
      talendRequestToPostmanItem (requestWithHost "host:") = .ok item ∧
      item.request.url.port = none ∧
      ¬ (item.request.url.port = some (.str p) ∧ item.request.url.host = [.str hn])) ∧
    (∃ item, talendRequestToPostmanItem (requestWithHost "") = .ok item ∧
      item.request.url.host = [lit "localhost"] ∧ item.request.url.host ≠ [lit ""]) :=
  ⟨⟨"a".toList, "b:c".toList, _, rfl, rfl, rfl, rfl, fun h => nomatch h.1⟩,
   ⟨"host".toList, [], _, rfl, rfl, rfl, fun h => nomatch h.1⟩,
   ⟨_, rfl, rfl, fun h => nomatch h⟩⟩

/-- C6: the path list of a returned item is obtained from `uri.path` (or the empty
string) by removing its leading slashes and splitting the rest on `/`.  It is empty when
nothing is left; otherwise its segments contain no slash and, joined with `/`, give the
rest back, so that the empty segments of a double or trailing slash are kept. -/
theorem url_path_segments (req : JVal) (item : RequestItem)
    (h : talendRequestToPostmanItem req = .ok item) :
    ∃ path trimmedPath,
      pathOf (uriOf req) = .str path ∧
      (∃ k, path = List.replicate k '/' ++ trimmedPath) ∧ trimmedPath.head? ≠ some '/' ∧
      (trimmedPath = [] → item.request.url.path = []) ∧
      (trimmedPath ≠ [] →
        item.request.url.path = split '/' trimmedPath ∧
        item.request.url.path ≠ [] ∧
        (∀ seg ∈ item.request.url.path, '/' ∉ seg) ∧
        List.intercalate "/".toList item.request.url.path = trimmedPath) := by
  obtain ⟨schemeName, host, path, -, -, hp, hurl⟩ := url_of_item h
  refine ⟨path, stripLeadingSlashes path, hp, (stripLeadingSlashes_spec path).1,
    (stripLeadingSlashes_spec path).2, ?_, ?_⟩
  · intro he
    rw [hurl]
    simp [urlOf, he]
  · intro hne
    have hpath : item.request.url.path = split '/' (stripLeadingSlashes path) := by
      rw [hurl]
      cases hsp : stripLeadingSlashes path with
      | nil => exact absurd hsp hne
      | cons d rest => simp [urlOf, hsp]
    rw [hpath]
    exact ⟨rfl, split_ne_nil _ _, fun seg hseg => not_mem_of_mem_split hseg,
      intercalate_split '/' _⟩

/-- C6 on four paths: `/a/b` gives `["a","b"]`, `/a/b/` gives `["a","b",""]`, `//a//b`
gives `["a","","b"]`, and `///` gives the empty list. -/
theorem url_path_segments_witness :
    (∃ item, talendRequestToPostmanItem (requestWithPath "/a/b") = .ok item ∧
      item.request.url.path = ["a".toList, "b".toList] ∧
      item.request.url.raw = "http://localhost/a/b".toList) ∧
    (∃ item, talendRequestToPostmanItem (requestWithPath "/a/b/") = .ok item ∧
      item.request.url.path = ["a".toList, "b".toList, []]) ∧
    (∃ item, talendRequestToPostmanItem (requestWithPath "//a//b") = .ok item ∧
      item.request.url.path = ["a".toList, [], "b".toList]) ∧
    (∃ item, talendRequestToPostmanItem (requestWithPath "///") = .ok item ∧
      item.request.url.path = [] ∧
      ∃ path trimmedPath,
        pathOf (uriOf (requestWithPath "///")) = .str path ∧
        (∃ k, path = List.replicate k '/' ++ trimmedPath) ∧ trimmedPath.head? ≠ some '/' ∧
        (trimmedPath = [] → item.request.url.path = []) ∧
        (trimmedPath ≠ [] →
          item.request.url.path = split '/' trimmedPath ∧
          item.request.url.path ≠ [] ∧
          (∀ seg ∈ item.request.url.path, '/' ∉ seg) ∧
          List.intercalate "/".toList item.request.url.path = trimmedPath)) :=
  ⟨⟨_, rfl, rfl, rfl⟩, ⟨_, rfl, rfl⟩, ⟨_, rfl, rfl⟩,
   ⟨_, rfl, rfl, url_path_segments (requestWithPath "///") _ rfl⟩⟩

/-- C7 (amended): when `uri.scheme.name` is a non-empty string, the protocol of a
returned item is that name with its first `:` removed, every other character unchanged:
the name itself when it has no colon, and `a ++ b` when it is `a ++ ":" ++ b` with no
colon in `a` (so a name with a single colon, at its end, loses it).  When
`uri.scheme.name` is absent or falsy the protocol is `http`. -/
theorem protocol_of_scheme_name (req : JVal) (item : RequestItem)
    (h : talendRequestToPostmanItem req = .ok item) :
    (∀ name, optProp (optProp (uriOf req) "scheme".toList) "name".toList = .str name →
      name ≠ [] →
      (':' ∉ name → item.request.url.protocol = name) ∧
      (∀ a b, name = a ++ ':' :: b → ':' ∉ a → item.request.url.protocol = a ++ b)) ∧
    (truthy (optProp (optProp (uriOf req) "scheme".toList) "name".toList) = false →
      item.request.url.protocol = "http".toList) := by
  obtain ⟨schemeName, host, path, hs, -, -, hurl⟩ := url_of_item h
  unfold schemeNameOf at hs
  constructor
  · intro name hname hne
    rw [hname, orElse_str_of_ne_nil _ hne] at hs
    cases hs
    rw [hurl]
    refine ⟨fun hc => replaceFirst_of_not_mem hc, ?_⟩
    rintro a b rfl ha
    exact replaceFirst_append b ha
  · intro hf
    rw [orElse_of_not_truthy _ hf] at hs
    cases hs
    rw [hurl]
    rfl

/-- C7 (amended) on three requests: `https:` gives `https`, `https` gives `https`, and
no scheme gives `http`. -/
theorem protocol_of_scheme_name_witness :
    (∃ item, talendRequestToPostmanItem sampleRequest = .ok item ∧
      item.request.url.protocol = "https".toList) ∧
    (∃ item, talendRequestToPostmanItem (requestWithScheme "https") = .ok item ∧
      item.request.url.protocol = "https".toList) ∧
    (∃ item, talendRequestToPostmanItem (.obj []) = .ok item ∧
      item.request.url.protocol = "http".toList) :=
  ⟨⟨_, rfl,
      ((protocol_of_scheme_name sampleRequest _ rfl).1 "https:".toList rfl (by decide)).2
        "https".toList [] rfl (by decide)⟩,
   ⟨_, rfl,
      ((protocol_of_scheme_name (requestWithScheme "https") _ rfl).1 "https".toList rfl
        (by decide)).1 (by decide)⟩,
   ⟨_, rfl, (protocol_of_scheme_name (.obj []) _ rfl).2 rfl⟩⟩

/-- C7 as stated fails: the scheme name `a:b:` gives the protocol `ab:`, in which the
trailing colon is kept and an inner character is removed; the claim gives `a:b`. -/
theorem protocol_counterexample :
    ∃ item, talendRequestToPostmanItem (requestWithScheme "a:b:") = .ok item ∧
      item.request.url.protocol = "ab:".toList ∧
      item.request.url.protocol ≠ "a:b".toList :=
  ⟨_, rfl, rfl, fun h => nomatch h⟩

/-- C8: the header list of a returned item is the input headers restricted to the
enabled ones (those whose `enabled` flag is truthy; for boolean flags, those with
`enabled = true`), in their original order, each mapped to `{ key: name, value }`.  It
is a sublist of the images of all headers and is empty when there are no headers. -/
theorem header_list_of_enabled_headers (req : JVal) (item : RequestItem)
    (h : talendRequestToPostmanItem req = .ok item) :
    item.request.header = ((headersOf req).filter headerEnabled).map headerEntry ∧
    ((∀ x ∈ headersOf req, ∃ b, optProp x "enabled".toList = .bool b) →
      item.request.header = ((headersOf req).filter enabledIsTrue).map headerEntry) ∧
    List.Sublist item.request.header ((headersOf req).map headerEntry) ∧
    (headersOf req = [] → item.request.header = []) := by
  have key := header_of_item h
  refine ⟨key, ?_, ?_, ?_⟩
  · intro hb
    rw [key, filter_headerEnabled_of_bool hb]
  · rw [key]
    exact List.Sublist.map _ (List.filter_sublist _)
  · intro he
    rw [key, he]
    rfl

/-- C8 on the sample request: of the three headers the two enabled ones are kept, in
order, and the disabled `X-Debug` is dropped. -/
theorem header_list_of_enabled_headers_witness :
    ∃ item, talendRequestToPostmanItem sampleRequest = .ok item ∧
      item.request.header.map (fun e => e.key) = [lit "Accept", lit "Content-Type"] ∧
      item.request.header =
        ((headersOf sampleRequest).filter enabledIsTrue).map headerEntry :=
  ⟨_, rfl, rfl,
    (header_list_of_enabled_headers sampleRequest _ rfl).2.1
      (List.forall_mem_cons.2 ⟨⟨_, rfl⟩, List.forall_mem_cons.2 ⟨⟨_, rfl⟩,
        List.forall_mem_cons.2 ⟨⟨_, rfl⟩, fun _ hx => nomatch hx⟩⟩⟩)⟩

/-- C9: for a returned item of a request whose `formBody.items` is a non-empty array
and whose encoding is a string: if the encoding contains `x-www-form-urlencoded`, case
ignored, the body mode is `urlencoded` and its entries are the items in order, each as
`{ key: name, value, type: "text" }`; otherwise, if it contains `multipart/form-data`,
the mode is `formdata` and its entries are the items in order, each as
`{ key: name, value, type }` with type `file` exactly when the type of the item is
`file` and `text` otherwise.  There are as many entries as items. -/
theorem form_body_entries (req : JVal) (item : RequestItem)
    (h : talendRequestToPostmanItem req = .ok item) (items : List JVal) (enc : JSString)
    (hitems : formItemsOf req = .arr items) (hne : items ≠ [])
    (henc : encodingOf req = .str enc) :
    (ContainsIgnoreCase "x-www-form-urlencoded".toList enc →
      item.request.body.mode = "urlencoded".toList ∧
      ∃ entries, item.request.body.urlencoded = some entries ∧
        entries = items.map textEntry ∧ entries.length = items.length) ∧
    (¬ ContainsIgnoreCase "x-www-form-urlencoded".toList enc →
      ContainsIgnoreCase "multipart/form-data".toList enc →
      item.request.body.mode = "formdata".toList ∧
      ∃ entries, item.request.body.formdata = some entries ∧
        entries = items.map fileOrTextEntry ∧ entries.length = items.length) ∧
    (∀ fi,
      ((fileOrTextEntry fi).type = "file".toList ↔
        optProp fi "type".toList = .str "file".toList) ∧
      ((fileOrTextEntry fi).type ≠ "file".toList →
        (fileOrTextEntry fi).type = "text".toList)) := by
  obtain ⟨ct, hb⟩ := body_of_item h
  unfold formItemsOf formBodyOf at hitems
  unfold encodingOf formBodyOf at henc
  cases items with
  | nil => exact absurd rfl hne
  | cons fi fis =>
    have ht : jsToString (optProp (optProp (optProp req "body".toList) "formBody".toList)
        "encoding".toList) = .ok enc := by rw [henc]; rfl
    rw [buildBody_of_items ct hitems ht] at hb
    refine ⟨?_, ?_, fileOrTextEntry_type⟩
    · intro h1
      rw [if_pos ((includes_toLowerCase_iff _ _).2 h1)] at hb
      cases hm : mapJs urlencodedEntry (fi :: fis) with
      | error e => rw [hm] at hb; cases hb
      | ok es =>
        rw [hm] at hb
        simp only [ok_bind] at hb
        rw [← Except.ok.inj hb]
        exact ⟨rfl, es, rfl, mapJs_urlencodedEntry hm, mapJs_length hm⟩
    · intro h1 h2
      have h1' : ¬ includes "x-www-form-urlencoded".toList (toLowerCase enc) = true :=
        fun hc => h1 ((includes_toLowerCase_iff _ _).1 hc)
      rw [if_neg h1', if_pos ((includes_toLowerCase_iff _ _).2 h2)] at hb
      cases hm : mapJs formdataEntry (fi :: fis) with
      | error e => rw [hm] at hb; cases hb
      | ok es =>
        rw [hm] at hb
        simp only [ok_bind] at hb
        rw [← Except.ok.inj hb]
        exact ⟨rfl, es, rfl, mapJs_formdataEntry hm, mapJs_length hm⟩

/-- C9 on two requests: the encoding `application/X-WWW-Form-Urlencoded` gives an
`urlencoded` body of two `text` entries; `Multipart/Form-Data; boundary=x` gives a
`formdata` body in which the item of type `file` is a `file` entry. -/
theorem form_body_entries_witness :
    (∃ item, talendRequestToPostmanItem sampleRequest = .ok item ∧
      item.request.body.urlencoded =
        some [ { key := lit "a", value := lit "1", type := "text".toList },
               { key := lit "b", value := lit "2", type := "text".toList } ] ∧
      item.request.body.mode = "urlencoded".toList) ∧
    (∃ item,
      talendRequestToPostmanItem (requestWithForm (some "Multipart/Form-Data; boundary=x")) =
        .ok item ∧
      item.request.body.formdata =
        some [ { key := lit "a", value := lit "1", type := "text".toList },
               { key := lit "b", value := lit "2", type := "file".toList } ] ∧
      item.request.body.mode = "formdata".toList) :=
  ⟨⟨_, rfl, rfl,
      ((form_body_entries sampleRequest _ rfl _ "application/X-WWW-Form-Urlencoded".toList rfl
        (List.cons_ne_nil _ _) rfl).1
        ⟨"application/".toList, "X-WWW-Form-Urlencoded".toList, [], rfl, rfl⟩).1⟩,
   ⟨_, rfl, rfl,
      ((form_body_entries (requestWithForm (some "Multipart/Form-Data; boundary=x")) _ rfl _
        "Multipart/Form-Data; boundary=x".toList rfl (List.cons_ne_nil _ _) rfl).2.1
        (fun hc => absurd ((includes_toLowerCase_iff _ _).2 hc) (by decide))
        ⟨[], "Multipart/Form-Data".toList, "; boundary=x".toList, rfl, rfl⟩).1⟩⟩

/-- C10: for a returned item of a request whose `formBody.items` is a non-empty array
and whose encoding is absent, or is a string that contains neither
`x-www-form-urlencoded` nor `multipart/form-data` (case ignored), the body is in raw
mode with the language hint `text` and with raw text `body.textBody` (the empty string
when it is absent), whatever the headers are; no form entry is emitted. -/
theorem unrecognized_encoding_body (req : JVal) (item : RequestItem)
    (h : talendRequestToPostmanItem req = .ok item) (items : List JVal)
    (hitems : formItemsOf req = .arr items) (hne : items ≠ [])
    (henc : (encodingOf req).isNullish = true ∨
      ∃ enc, encodingOf req = .str enc ∧
        ¬ ContainsIgnoreCase "x-www-form-urlencoded".toList enc ∧
        ¬ ContainsIgnoreCase "multipart/form-data".toList enc) :
    item.request.body =
      { mode := "raw".toList
        raw := orElse (textBodyOf req) (.str [])
        urlencoded := none
        formdata := none
        options := some "text".toList } ∧
    (∀ t, textBodyOf req = .str t → item.request.body.raw = .str t) ∧
    ((textBodyOf req).isNullish = true → item.request.body.raw = .str []) := by
  obtain ⟨ct, hb⟩ := body_of_item h
  unfold formItemsOf formBodyOf at hitems
  unfold encodingOf formBodyOf at henc
  have key : item.request.body =
      { mode := "raw".toList
        raw := orElse (textBodyOf req) (.str [])
        urlencoded := none
        formdata := none
        options := some "text".toList } := by
    cases items with
    | nil => exact absurd rfl hne
    | cons fi fis =>
      obtain ⟨t, ht, h1, h2⟩ : ∃ t,
          jsToString (optProp (optProp (optProp req "body".toList) "formBody".toList)
            "encoding".toList) = .ok t ∧
          ¬ includes "x-www-form-urlencoded".toList (toLowerCase t) = true ∧
          ¬ includes "multipart/form-data".toList (toLowerCase t) = true := by
        rcases henc with hnull | ⟨enc, he, h1, h2⟩
        · cases hv : optProp (optProp (optProp req "body".toList) "formBody".toList)
              "encoding".toList with
          | undefined => exact ⟨_, rfl, by decide, by decide⟩
          | null => exact ⟨_, rfl, by decide, by decide⟩
          | _ => rw [hv] at hnull; cases hnull
        · refine ⟨enc, by rw [he]; rfl, ?_, ?_⟩
          · exact fun hc => h1 ((includes_toLowerCase_iff _ _).1 hc)
          · exact fun hc => h2 ((includes_toLowerCase_iff _ _).1 hc)
      rw [buildBody_of_items ct hitems ht, if_neg h1, if_neg h2] at hb
      exact (Except.ok.inj hb).symm
  refine ⟨key, ?_, ?_⟩
  · intro t ht
    rw [key, ht]
    cases t <;> rfl
  · intro hn
    rw [key]
    cases hv : textBodyOf req with
    | undefined => rfl
    | null => rfl
    | _ => rw [hv] at hn; cases hn

/-- C10 on two requests with a JSON content type, a text body and two form items: with
the encoding `text/plain`, and with no encoding, the body is the raw text with the
language hint `text`. -/
theorem unrecognized_encoding_body_witness :
    (∃ item, talendRequestToPostmanItem (requestWithForm (some "text/plain")) = .ok item ∧
      item.request.header.map (fun e => e.value) = [lit "application/json"] ∧
      item.request.body =
        { mode := "raw".toList, raw := lit "hello", urlencoded := none, formdata := none,
          options := some "text".toList }) ∧
    (∃ item, talendRequestToPostmanItem (requestWithForm none) = .ok item ∧
      item.request.body =
        { mode := "raw".toList, raw := lit "hello", urlencoded := none, formdata := none,
          options := some "text".toList }) :=
  ⟨⟨_, rfl, rfl,
      (unrecognized_encoding_body (requestWithForm (some "text/plain")) _ rfl _ rfl
        (List.cons_ne_nil _ _)
        (Or.inr ⟨"text/plain".toList, rfl,
          fun hc => absurd ((includes_toLowerCase_iff _ _).2 hc) (by decide),
          fun hc => absurd ((includes_toLowerCase_iff _ _).2 hc) (by decide)⟩)).1⟩,
   ⟨_, rfl,
      (unrecognized_encoding_body (requestWithForm none) _ rfl _ rfl (List.cons_ne_nil _ _)
        (Or.inl rfl)).1⟩⟩

/-- C11: for a returned item of a request without form items (`formBody.items` is not a
non-empty array), the body is in raw mode, without form entries, and its raw text is
`body.textBody` (the empty string when it is absent or falsy).  With `ct` the detected
content type, the language hint is `json` when `ct` contains `application/json`, whatever
the text; otherwise it is `text` when the raw text is not empty; otherwise there is no
hint and the raw text is empty. -/
theorem raw_body_without_form_items (req : JVal) (item : RequestItem)
    (h : talendRequestToPostmanItem req = .ok item)
    (hno : ∀ fi fis, formItemsOf req ≠ .arr (fi :: fis)) :
    ∃ ct, detectContentType item.request.header = .ok ct ∧
      item.request.body.mode = "raw".toList ∧
      item.request.body.urlencoded = none ∧ item.request.body.formdata = none ∧
      item.request.body.raw = orElse (textBodyOf req) (.str []) ∧
      (∀ t, textBodyOf req = .str t → item.request.body.raw = .str t) ∧
      ((textBodyOf req).isNullish = true → item.request.body.raw = .str []) ∧
      (Contains "application/json".toList ct →
        item.request.body.options = some "json".toList) ∧
      (¬ Contains "application/json".toList ct → item.request.body.raw ≠ .str [] →
        item.request.body.options = some "text".toList) ∧
      (¬ Contains "application/json".toList ct → item.request.body.raw = .str [] →
        item.request.body.options = none) := by
  obtain ⟨ct, hct, hb⟩ := content_type_and_body_of_item h
  unfold formItemsOf formBodyOf at hno
  rw [buildBody_of_no_items_eq ct hno] at hb
  have hbody : item.request.body = rawBodyOf ct (orElse (textBodyOf req) (.str [])) :=
    (Except.ok.inj hb).symm
  have hraw : item.request.body.raw = orElse (textBodyOf req) (.str []) := by
    rw [hbody]
    unfold rawBodyOf
    split_ifs with h1 h2
    · rfl
    · rfl
    · rw [truthy_orElse_str_nil] at h2
      rw [orElse_of_not_truthy _ (by simpa using h2)]
  have hmode : item.request.body.mode = "raw".toList ∧
      item.request.body.urlencoded = none ∧ item.request.body.formdata = none := by
    rw [hbody]
    unfold rawBodyOf
    split_ifs <;> exact ⟨rfl, rfl, rfl⟩
  refine ⟨ct, hct, hmode.1, hmode.2.1, hmode.2.2, hraw, ?_, ?_, ?_, ?_, ?_⟩
  · intro t ht
    rw [hraw, ht]
    cases t <;> rfl
  · intro hn
    rw [hraw]
    cases hv : textBodyOf req with
    | undefined => rfl
    | null => rfl
    | _ => rw [hv] at hn; cases hn
  · intro hc
    rw [hbody]
    exact (rawBodyOf_options_json _ _).2 ((includes_iff _ _).2 hc)
  · intro hc hne
    have h1 : ¬ includes "application/json".toList ct = true :=
      fun hi => hc ((includes_iff _ _).1 hi)
    have h2 : truthy (orElse (textBodyOf req) (.str [])) = true := by
      cases ht : truthy (textBodyOf req) with
      | true => rw [truthy_orElse_str_nil, ht]
      | false => exact absurd (by rw [hraw, orElse_of_not_truthy _ ht]) hne
    rw [hbody]
    unfold rawBodyOf
    rw [if_neg h1, if_pos h2]
  · intro hc he
    have h1 : ¬ includes "application/json".toList ct = true :=
      fun hi => hc ((includes_iff _ _).1 hi)
    have h2 : ¬ truthy (orElse (textBodyOf req) (.str [])) = true := by
      rw [← hraw, he]
      decide
    rw [hbody]
    unfold rawBodyOf
    rw [if_neg h1, if_neg h2]

/-- C11 on four requests without form items: a JSON content type with an empty text
gives the hint `json`; a plain content type with a text gives `text`; no header with a
text gives `text`; no header and no text gives the bare empty body. -/
theorem raw_body_without_form_items_witness :
    (∃ item,
      talendRequestToPostmanItem
        (requestWithHeaders [sampleHeader true "Content-Type" "application/json"] "") =
        .ok item ∧
      item.request.body =
        { mode := "raw".toList, raw := lit "", urlencoded := none, formdata := none,
          options := some "json".toList }) ∧
    (∃ item,
      talendRequestToPostmanItem
        (requestWithHeaders [sampleHeader true "Content-Type" "text/plain"] "hello") =
        .ok item ∧
      item.request.body =
        { mode := "raw".toList, raw := lit "hello", urlencoded := none, formdata := none,
          options := some "text".toList }) ∧
    (∃ item, talendRequestToPostmanItem (requestWithHeaders [] "hello") = .ok item ∧
      item.request.body.options = some "text".toList) ∧
    (∃ item, talendRequestToPostmanItem (.obj []) = .ok item ∧
      item.request.body =
        { mode := "raw".toList, raw := lit "", urlencoded := none, formdata := none,
          options := none } ∧
      ∃ ct, detectContentType item.request.header = .ok ct ∧
        item.request.body.mode = "raw".toList) :=
  ⟨⟨_, rfl, rfl⟩, ⟨_, rfl, rfl⟩, ⟨_, rfl, rfl⟩,
   ⟨_, rfl, rfl,
     (raw_body_without_form_items (.obj []) _ rfl (fun _ _ hc => nomatch hc)).imp
       fun _ hx => ⟨hx.1, hx.2.1⟩⟩⟩

/-- C12: for a returned item of a request without form items, the language hint of the
body is `json` if and only if the request has an enabled header whose name is
`content-type`, case ignored, and the value of the first such header contains
`application/json`, case ignored.  Disabled headers and later content-type headers
play no part. -/
theorem json_hint_iff_first_content_type (req : JVal) (item : RequestItem)
    (h : talendRequestToPostmanItem req = .ok item)
    (hno : ∀ fi fis, formItemsOf req ≠ .arr (fi :: fis)) :
    item.request.body.options = some "json".toList ↔
      ∃ hdr value, firstContentTypeHeader req = some hdr ∧
        optProp hdr "value".toList = .str value ∧
        ContainsIgnoreCase "application/json".toList value := by
  obtain ⟨ct, hct, hb⟩ := content_type_and_body_of_item h
  unfold formItemsOf formBodyOf at hno
  rw [buildBody_of_no_items_eq ct hno] at hb
  rw [← Except.ok.inj hb, rawBodyOf_options_json]
  rcases content_type_of_request h hct with ⟨hnone, rfl⟩ | ⟨hdr, v, hsome, hv, rfl⟩
  · constructor
    · intro hc
      exact absurd hc (by decide)
    · rintro ⟨hdr, value, hsome, -, -⟩
      rw [hnone] at hsome
      cases hsome
  · rw [includes_toLowerCase_iff]
    constructor
    · intro hc
      exact ⟨hdr, v, hsome, hv, hc⟩
    · rintro ⟨hdr', value, hsome', hv', hc⟩
      rw [hsome] at hsome'
      cases hsome'
      rw [hv] at hv'
      cases hv'
      exact hc

/-- C12 on two requests without form items.  In the first the JSON content type is
declared by a disabled header and by a later header, and the first enabled content-type
header says `text/plain`: the hint is `text`.  In the second the first enabled
content-type header is `CONTENT-type: Application/JSON; charset=utf-8`: the hint is
`json`. -/
theorem json_hint_iff_first_content_type_witness :
    (firstContentTypeHeader
        (requestWithHeaders
          [ sampleHeader false "Content-Type" "application/json",
            sampleHeader true "content-TYPE" "text/plain",
            sampleHeader true "Content-Type" "application/json" ] "x") =
        some (sampleHeader true "content-TYPE" "text/plain") ∧
      ∃ item,
        talendRequestToPostmanItem
          (requestWithHeaders
            [ sampleHeader false "Content-Type" "application/json",
              sampleHeader true "content-TYPE" "text/plain",
              sampleHeader true "Content-Type" "application/json" ] "x") = .ok item ∧
        item.request.body.options = some "text".toList) ∧
    (∃ item,
      talendRequestToPostmanItem
        (requestWithHeaders
          [ sampleHeader true "Accept" "application/json",
            sampleHeader true "CONTENT-type" "Application/JSON; charset=utf-8" ] "") =
        .ok item ∧
      item.request.body.options = some "json".toList) :=
  ⟨⟨rfl, _, rfl, rfl⟩,
   ⟨_, rfl,
     (json_hint_iff_first_content_type
       (requestWithHeaders
          [ sampleHeader true "Accept" "application/json",
            sampleHeader true "CONTENT-type" "Application/JSON; charset=utf-8" ] "")
       _ rfl (fun _ _ hc => nomatch hc)).2
       ⟨_, _, rfl, rfl, ⟨[], "Application/JSON".toList, "; charset=utf-8".toList, rfl, rfl⟩⟩⟩⟩

/-- C13: when `talendProjectToPostmanCollection` returns, the name of the collection
is the name of the entity (`Unnamed Project` when it is absent or falsy), its schema is
the v2.1.0 collection schema URI, its exporter tag is `talend2postman`, its identifier is
the one drawn, and its items are `talendServiceToPostmanFolder` applied, in order, to
exactly the child nodes whose entity type is `Service` (none when there are no
children).  It returns on every Project node without `null` children on whose Service
children the Service mapper returns. -/
theorem talendProjectToPostmanCollection_spec (uuid : Nat → JSString) (p : JVal) (n : Nat) :
    (∀ c n', talendProjectToPostmanCollection uuid p n = .ok (c, n') →
      c.info.name =
        orElse (optProp (entityOf p) "name".toList) (.str "Unnamed Project".toList) ∧
      (∀ t, optProp (entityOf p) "name".toList = .str t → t ≠ [] → c.info.name = .str t) ∧
      ((optProp (entityOf p) "name".toList).isNullish = true →
        c.info.name = .str "Unnamed Project".toList) ∧
      c.info.schema =
        "https://schema.getpostman.com/json/collection/v2.1.0/collection.json".toList ∧
      c.info._exporter_id = "talend2postman".toList ∧
      c.info._postman_id = uuid n ∧ n' = n + 1 ∧
      mapJs talendServiceToPostmanFolder (serviceNodes p) = .ok c.item ∧
      c.item.length = (serviceNodes p).length ∧
      (childNodes p = [] → c.item = [])) ∧
    (hasEntityType "Project".toList p = true →
      (∀ ch ∈ childNodes p, ch.isNullish = false) →
      (∀ svc ∈ serviceNodes p, ∃ folder, talendServiceToPostmanFolder svc = .ok folder) →
      ∃ c, talendProjectToPostmanCollection uuid p n = .ok (c, n + 1)) := by
  constructor
  · intro c n' h
    obtain ⟨-, -, -, hn', hinfo, hitems⟩ := (talendProjectToPostmanCollection_iff uuid p n c n').1 h
    have hname : c.info.name =
        orElse (optProp (entityOf p) "name".toList) (.str "Unnamed Project".toList) := by
      rw [hinfo]
    refine ⟨hname, ?_, ?_, by rw [hinfo]; rfl, by rw [hinfo], by rw [hinfo], hn', hitems,
      mapJs_length hitems, ?_⟩
    · intro t ht hne
      rw [hname, ht, orElse_str_of_ne_nil _ hne]
    · intro hnull
      rw [hname, orElse_of_nullish _ hnull]
    · intro hch
      have : serviceNodes p = [] := by unfold serviceNodes; rw [hch]; rfl
      rw [this] at hitems
      exact (Except.ok.inj hitems).symm
  · intro hp hch hsvc
    obtain ⟨hn, he⟩ := not_nullish_of_hasEntityType hp
    obtain ⟨items, hitems⟩ := mapJs_total (serviceNodes p) hsvc
    exact ⟨{ info :=
               { _postman_id := uuid n
                 name := orElse (optProp (entityOf p) "name".toList)
                   (.str "Unnamed Project".toList)
                 schema := SCHEMA_V2_1
                 _exporter_id := "talend2postman".toList }
             item := items },
      (talendProjectToPostmanCollection_iff uuid p n _ _).2 ⟨hn, he, hch, rfl, rfl, hitems⟩⟩

/-- C13 on two Project nodes: the first Project of the sample document gives the
collection `P1` with the one folder `S1`, its two other children being dropped; a
Project without name and children gives the collection `Unnamed Project` without
items. -/
theorem talendProjectToPostmanCollection_spec_witness :
    (∃ c, talendProjectToPostmanCollection sampleUuid
        (sampleNode "Project" "P1"
          [ sampleNode "Service" "S1" [sampleNode "Request" "r1" []],
            sampleNode "Request" "under-project" [],
            sampleNode "Folder" "F" [] ]) 3 = .ok (c, 4) ∧
      c.info =
        { _postman_id := "u3".toList, name := lit "P1",
          schema :=
            "https://schema.getpostman.com/json/collection/v2.1.0/collection.json".toList,
          _exporter_id := "talend2postman".toList } ∧
      c.item.map (fun f => f.name) = [lit "S1"]) ∧
    (∃ c, talendProjectToPostmanCollection sampleUuid
        (.obj [prop "entity" (.obj [prop "type" (lit "Project")])]) 0 = .ok (c, 1) ∧
      c.info.name = lit "Unnamed Project" ∧ c.item = []) :=
  ⟨⟨_, rfl, rfl, rfl⟩,
   ⟨_, rfl,
     ((talendProjectToPostmanCollection_spec sampleUuid
        (.obj [prop "entity" (.obj [prop "type" (lit "Project")])]) 0).1 _ _ rfl).2.2.1 rfl,
     ((talendProjectToPostmanCollection_spec sampleUuid
        (.obj [prop "entity" (.obj [prop "type" (lit "Project")])]) 0).1 _ _ rfl).2.2.2.2.2.2.2.2.2
        rfl⟩⟩

/-- C14: when `talendServiceToPostmanFolder` returns, the name of the folder is the name
of the entity (`Unnamed Service` when it is absent or falsy) and its items are
`talendRequestToPostmanItem` applied, in order, to the entities of exactly the child
nodes whose entity type is `Request` (none when there are no children).  It returns on
every Service node without `null` children on whose Request children the request mapper
returns: the children of another type raise no error. -/
theorem talendServiceToPostmanFolder_spec (svc : JVal) :
    (∀ folder, talendServiceToPostmanFolder svc = .ok folder →
      folder.name =
        orElse (optProp (entityOf svc) "name".toList) (.str "Unnamed Service".toList) ∧
      (∀ t, optProp (entityOf svc) "name".toList = .str t → t ≠ [] → folder.name = .str t) ∧
      ((optProp (entityOf svc) "name".toList).isNullish = true →
        folder.name = .str "Unnamed Service".toList) ∧
      mapJs talendRequestToPostmanItem (requestEntities svc) = .ok folder.item ∧
      folder.item.length = (requestEntities svc).length ∧
      (childNodes svc = [] → folder.item = [])) ∧
    (hasEntityType "Service".toList svc = true →
      (∀ ch ∈ childNodes svc, ch.isNullish = false) →
      (∀ e ∈ requestEntities svc, ∃ item, talendRequestToPostmanItem e = .ok item) →
      ∃ folder, talendServiceToPostmanFolder svc = .ok folder) := by
  constructor
  · intro folder h
    obtain ⟨-, -, -, hname, hitems⟩ := (talendServiceToPostmanFolder_iff svc folder).1 h
    refine ⟨hname, ?_, ?_, hitems, mapJs_length hitems, ?_⟩
    · intro t ht hne
      rw [hname, ht, orElse_str_of_ne_nil _ hne]
    · intro hnull
      rw [hname, orElse_of_nullish _ hnull]
    · intro hch
      have : requestEntities svc = [] := by unfold requestEntities; rw [hch]; rfl
      rw [this] at hitems
      exact (Except.ok.inj hitems).symm
  · intro hs hch hreq
    obtain ⟨hn, he⟩ := not_nullish_of_hasEntityType hs
    obtain ⟨items, hitems⟩ := mapJs_total (requestEntities svc) hreq
    exact ⟨{ name := orElse (optProp (entityOf svc) "name".toList)
               (.str "Unnamed Service".toList)
             item := items },
      (talendServiceToPostmanFolder_iff svc _).2 ⟨hn, he, hch, rfl, hitems⟩⟩

/-- C14 on two Service nodes: a Service with a Request, a Folder and a second Request
gives the folder of the two requests, in order; a Service without name and children
gives the folder `Unnamed Service` without items. -/
theorem talendServiceToPostmanFolder_spec_witness :
    (∃ folder, talendServiceToPostmanFolder
        (sampleNode "Service" "S1"
          [ sampleNode "Request" "r1" [],
            sampleNode "Folder" "F" [sampleNode "Request" "deep" []],
            sampleNode "Request" "r2" [] ]) = .ok folder ∧
      folder.name = lit "S1" ∧
      folder.item.map (fun item => item.name) = [lit "r1", lit "r2"]) ∧
    (∃ folder, talendServiceToPostmanFolder
        (.obj [prop "entity" (.obj [prop "type" (lit "Service")])]) = .ok folder ∧
      folder.name = lit "Unnamed Service" ∧ folder.item = []) :=
  ⟨⟨_, rfl, rfl, rfl⟩,
   ⟨_, rfl,
     ((talendServiceToPostmanFolder_spec
        (.obj [prop "entity" (.obj [prop "type" (lit "Service")])])).1 _ rfl).2.2.1 rfl,
     ((talendServiceToPostmanFolder_spec
        (.obj [prop "entity" (.obj [prop "type" (lit "Service")])])).1 _ rfl).2.2.2.2.2 rfl⟩⟩

/-- C15: for a request without `uri` (absent or `null`), whatever its other fields, the
URL is built without error and the URL of a returned item is exactly the raw URL
`http://localhost` with protocol `http`, host `["localhost"]`, an empty path list and
no port. -/
theorem url_without_uri (req : JVal) (hno : (uriOf req).isNullish = true) :
    buildUrl (uriOf req) = .ok
      { raw := "http://localhost".toList, protocol := "http".toList,
        host := [.str "localhost".toList], path := [], port := none } ∧
    ∀ item, talendRequestToPostmanItem req = .ok item →
      item.request.url =
        { raw := "http://localhost".toList, protocol := "http".toList,
          host := [.str "localhost".toList], path := [], port := none } := by
  have key : buildUrl (uriOf req) = .ok
      { raw := "http://localhost".toList, protocol := "http".toList,
        host := [.str "localhost".toList], path := [], port := none } := by
    cases hv : uriOf req with
    | undefined => rfl
    | null => rfl
    | _ => rw [hv] at hno; cases hno
  refine ⟨key, fun item h => ?_⟩
  have h1 := buildUrl_of_item h
  rw [key] at h1
  exact (Except.ok.inj h1).symm

/-- C15 on two requests: one with headers, a body and no `uri`, one with `uri: null`. -/
theorem url_without_uri_witness :
    (∃ item,
      talendRequestToPostmanItem
        (requestWithHeaders [sampleHeader true "Accept" "*/*"] "hello") = .ok item ∧
      item.request.url.raw = "http://localhost".toList) ∧
    (∃ item, talendRequestToPostmanItem (.obj [prop "uri" .null]) = .ok item ∧
      item.request.url =
        { raw := "http://localhost".toList, protocol := "http".toList,
          host := [.str "localhost".toList], path := [], port := none }) :=
  ⟨⟨_, rfl, rfl⟩,
   ⟨_, rfl, (url_without_uri (.obj [prop "uri" .null]) rfl).2 _ rfl⟩⟩

/-- C16: the name of a returned item is the name of the entity when that is truthy (a
non-empty string), and otherwise the string `Request ` followed by the text of the
`id` of the entity; its method is `method.name` unchanged when that is truthy and
otherwise `GET`; its response list is empty. -/
theorem name_method_response (req : JVal) (item : RequestItem)
    (h : talendRequestToPostmanItem req = .ok item) :
    (truthy (optProp req "name".toList) = true → item.name = optProp req "name".toList) ∧
    (∀ t, optProp req "name".toList = .str t → t ≠ [] → item.name = .str t) ∧
    (truthy (optProp req "name".toList) = false →
      ∃ idText, jsToString (optProp req "id".toList) = .ok idText ∧
        item.name = .str ("Request ".toList ++ idText)) ∧
    (truthy (optProp req "name".toList) = false →
      ∀ s, optProp req "id".toList = .str s → item.name = .str ("Request ".toList ++ s)) ∧
    (truthy (optProp (optProp req "method".toList) "name".toList) = true →
      item.request.method = optProp (optProp req "method".toList) "name".toList) ∧
    (truthy (optProp (optProp req "method".toList) "name".toList) = false →
      item.request.method = .str "GET".toList) ∧
    item.response = [] := by
  obtain ⟨hname, hmethod, hresp⟩ := name_and_method_of_item h
  obtain ⟨hn1, hn2⟩ := itemName_eq_ok hname
  refine ⟨hn1, ?_, hn2, ?_, ?_, ?_, hresp⟩
  · intro t ht hne
    have htr : truthy (optProp req "name".toList) = true := by
      rw [ht]
      cases t with
      | nil => exact absurd rfl hne
      | cons d rest => rfl
    rw [hn1 htr, ht]
  · intro hf s hs
    obtain ⟨idText, hid, hnm⟩ := hn2 hf
    rw [hs] at hid
    cases hid
    exact hnm
  · intro ht
    rw [hmethod, orElse_of_truthy _ ht]
  · intro hf
    rw [hmethod, orElse_of_not_truthy _ hf]

/-- C16 on five requests: the sample request keeps its name and its method `POST`; a
request with only the id `1` is named `Request 1` and has the method `GET`; a request
with the numeric id `7` and an empty name is named `Request 7`; the numeric ids that
JavaScript prints as `1e+21` and `0.5` give the names `Request 1e+21` and
`Request 0.5`. -/
theorem name_method_response_witness :
    (∃ item, talendRequestToPostmanItem sampleRequest = .ok item ∧
      item.name = lit "List items" ∧ item.request.method = lit "POST" ∧ item.response = []) ∧
    (∃ item, talendRequestToPostmanItem (requestWithHost "example.com") = .ok item ∧
      item.name = lit "Request 1" ∧ item.request.method = lit "GET") ∧
    (∃ item,
      talendRequestToPostmanItem
        (.obj [prop "id" (.num false "7".toList), prop "name" (lit "")]) = .ok item ∧
      item.name = lit "Request 7") ∧
    (∃ item,
      talendRequestToPostmanItem (.obj [prop "id" (.num false "1e+21".toList)]) = .ok item ∧
      item.name = lit "Request 1e+21") ∧
    (∃ item,
      talendRequestToPostmanItem (.obj [prop "id" (.num false "0.5".toList)]) = .ok item ∧
      item.name = lit "Request 0.5") :=
  ⟨⟨_, rfl, (name_method_response sampleRequest _ rfl).1 rfl,
      (name_method_response sampleRequest _ rfl).2.2.2.2.1 rfl,
      (name_method_response sampleRequest _ rfl).2.2.2.2.2.2⟩,
   ⟨_, rfl,
      (name_method_response (requestWithHost "example.com") _ rfl).2.2.2.1 rfl "1".toList rfl,
      (name_method_response (requestWithHost "example.com") _ rfl).2.2.2.2.2.1 rfl⟩,
   ⟨_, rfl, rfl⟩, ⟨_, rfl, rfl⟩, ⟨_, rfl, rfl⟩⟩

/-- C17: the value `main` serializes is the collection object itself exactly when the
conversion produced exactly one collection, and is the whole array of collections, in
order, in every other case; it is the empty array when no collection was produced. -/
theorem outputValue_spec (collections : List Collection) :
    (∀ c, outputValue collections = .object c ↔ collections = [c]) ∧
    (∀ cs, outputValue collections = .array cs ↔
      cs = collections ∧ collections.length ≠ 1) ∧
    outputValue [] = .array [] ∧
    (∀ uuid talendData n cols n',
      convertTalendToPostman uuid talendData n = .ok (cols, n') →
      mainOutputValue uuid talendData n = .ok (outputValue cols)) := by
  refine ⟨?_, ?_, rfl, ?_⟩
  · intro c
    unfold outputValue
    by_cases hl : collections.length = 1
    · rw [dif_pos hl]
      obtain ⟨c0, rfl⟩ := List.length_eq_one.1 hl
      constructor
      · intro hc
        cases hc
        rfl
      · intro hc
        cases hc
        rfl
    · rw [dif_neg hl]
      constructor
      · intro hc
        cases hc
      · rintro rfl
        exact absurd rfl hl
  · intro cs
    unfold outputValue
    by_cases hl : collections.length = 1
    · rw [dif_pos hl]
      constructor
      · intro hc
        cases hc
      · rintro ⟨-, hne⟩
        exact absurd hl hne
    · rw [dif_neg hl]
      constructor
      · intro hc
        cases hc
        exact ⟨rfl, hl⟩
      · rintro ⟨rfl, -⟩
        rfl
  · intro uuid talendData n cols n' hconv
    unfold mainOutputValue
    rw [hconv]
    rfl

/-- C17 on three documents: one Project gives the collection object, two Projects give
the array of the two collections, no Project gives the empty array. -/
theorem outputValue_spec_witness :
    (∃ c, mainOutputValue sampleUuid sampleDocumentOneProject 0 = .ok (.object c) ∧
      c.info.name = lit "P") ∧
    (∃ c1 c2, mainOutputValue sampleUuid sampleDocument 0 = .ok (.array [c1, c2]) ∧
      c1.info.name = lit "P1" ∧ c2.info.name = lit "P2") ∧
    mainOutputValue sampleUuid sampleDocumentNoProject 0 = .ok (.array []) ∧
    (∀ c, outputValue [c, c] ≠ .object c) :=
  ⟨⟨_, rfl, rfl⟩, ⟨_, _, rfl, rfl, rfl⟩, rfl,
   fun c hc => nomatch ((outputValue_spec [c, c]).1 c).1 hc⟩

/-- C18: two runs of `convertTalendToPostman` on the same document, with any two
supplies of identifiers, return together, and their outputs agree in every field except
the identifier of each collection: as many collections, pairwise with the same name,
schema and exporter tag and the same folders and request items, in the same order. -/
theorem convertTalendToPostman_supply_independent (uuid₁ uuid₂ : Nat → JSString)
    (doc : JVal) (n₁ n₂ : Nat) :
    (∀ cols₁ n₁', convertTalendToPostman uuid₁ doc n₁ = .ok (cols₁, n₁') →
      ∃ cols₂ n₂', convertTalendToPostman uuid₂ doc n₂ = .ok (cols₂, n₂')) ∧
    (∀ cols₁ n₁' cols₂ n₂',
      convertTalendToPostman uuid₁ doc n₁ = .ok (cols₁, n₁') →
      convertTalendToPostman uuid₂ doc n₂ = .ok (cols₂, n₂') →
      List.Forall₂ sameExceptId cols₁ cols₂ ∧
      cols₁.length = cols₂.length ∧
      cols₁.map (fun c => c.item) = cols₂.map (fun c => c.item) ∧
      allRequestItems cols₁ = allRequestItems cols₂) := by
  have key : ∀ cols₁ n₁', convertTalendToPostman uuid₁ doc n₁ = .ok (cols₁, n₁') →
      ∃ cols₂, convertTalendToPostman uuid₂ doc n₂ =
          .ok (cols₂, n₂ + (projectNodes doc).length) ∧
        List.Forall₂ sameExceptId cols₁ cols₂ := by
    intro cols₁ n₁' h
    obtain ⟨hshape, hm⟩ := (convertTalendToPostman_iff uuid₁ doc n₁ (cols₁, n₁')).1 h
    obtain ⟨cols₂, hm₂, hall⟩ :=
      mapDraw_rel (talendProjectToPostmanCollection_rel uuid₁ uuid₂) _ n₁ cols₁ n₁' n₂ hm
    exact ⟨cols₂, (convertTalendToPostman_iff uuid₂ doc n₂ _).2 ⟨hshape, hm₂⟩, hall⟩
  constructor
  · intro cols₁ n₁' h
    obtain ⟨cols₂, h₂, -⟩ := key cols₁ n₁' h
    exact ⟨cols₂, _, h₂⟩
  · intro cols₁ n₁' cols₂ n₂' h₁ h₂
    obtain ⟨cols₂', h₂', hall⟩ := key cols₁ n₁' h₁
    rw [h₂] at h₂'
    cases h₂'
    exact ⟨hall, forall₂_sameExceptId_items hall⟩

/-- C18 on the sample document with two supplies: both runs give two collections with
the same names and the same items, and different identifiers. -/
theorem convertTalendToPostman_supply_independent_witness :
    ∃ cols₁ cols₂,
      convertTalendToPostman sampleUuid sampleDocument 0 = .ok (cols₁, 2) ∧
      convertTalendToPostman otherUuid sampleDocument 5 = .ok (cols₂, 7) ∧
      cols₁.map (fun c => c.info._postman_id) = ["u0".toList, "u1".toList] ∧
      cols₂.map (fun c => c.info._postman_id) = ["vvvvvv5".toList, "vvvvvvv6".toList] ∧
      List.Forall₂ sameExceptId cols₁ cols₂ ∧
      allRequestItems cols₁ = allRequestItems cols₂ :=
  ⟨_, _, rfl, rfl, rfl, rfl,
    ((convertTalendToPostman_supply_independent sampleUuid otherUuid sampleDocument 0 5).2
      _ _ _ _ rfl rfl).1,
    ((convertTalendToPostman_supply_independent sampleUuid otherUuid sampleDocument 0 5).2
      _ _ _ _ rfl rfl).2.2.2⟩

/-- C19: for a returned item of a request whose host (`uri.host` or `localhost`)
has no colon, or is `h ++ ":" ++ p` with no colon in `h` and `p` and with `p` not
empty, the raw URL is the URL rebuilt from the other fields: the protocol, `://`, the
host element, `:` and the port when there is one, `/` and the path segments joined with
`/` when there are segments.  The path segments joined with `/` are `uri.path` without
its leading slashes. -/
theorem raw_url_rebuilt (req : JVal) (item : RequestItem)
    (h : talendRequestToPostmanItem req = .ok item) (host : JSString)
    (hh : hostOf (uriOf req) = .str host)
    (hform : ':' ∉ host ∨
      ∃ hn p, host = hn ++ ':' :: p ∧ ':' ∉ hn ∧ ':' ∉ p ∧ p ≠ []) :
    item.request.url.raw = rebuiltRaw item.request.url ∧
    ∃ path trimmedPath,
      pathOf (uriOf req) = .str path ∧
      (∃ k, path = List.replicate k '/' ++ trimmedPath) ∧ trimmedPath.head? ≠ some '/' ∧
      List.intercalate "/".toList item.request.url.path = trimmedPath := by
  obtain ⟨schemeName, host', path, -, hh', hp, hurl⟩ := url_of_item h
  rw [hh] at hh'
  cases hh'
  refine ⟨?_, path, stripLeadingSlashes path, hp, (stripLeadingSlashes_spec path).1,
    (stripLeadingSlashes_spec path).2, by rw [hurl]; exact urlOf_path_intercalate _ _ _⟩
  rw [hurl]
  unfold rebuiltRaw
  rw [urlOf_path_part, urlOf_raw]
  rcases hform with hc | ⟨hn, p, rfl, hhn, hp', hpne⟩
  · simp [urlOf, split_of_not_mem hc, elemAt, truthy]
  · have hsplit : split ':' (hn ++ ':' :: p) = [hn, p] := by
      rw [split_append _ hhn, split_of_not_mem hp']
    cases p with
    | nil => exact absurd rfl hpne
    | cons d rest => simp [urlOf, hsplit, elemAt, truthy]

/-- C19 on the sample request: the raw URL `https://example.com:8080/v1/items` is
rebuilt from the protocol `https`, the host `example.com`, the port `8080` and the
segments `v1`, `items`. -/
theorem raw_url_rebuilt_witness :
    ∃ item, talendRequestToPostmanItem sampleRequest = .ok item ∧
      item.request.url =
        { raw := "https://example.com:8080/v1/items".toList, protocol := "https".toList,
          host := [lit "example.com"], path := ["v1".toList, "items".toList],
          port := some (lit "8080") } ∧
      item.request.url.raw = rebuiltRaw item.request.url :=
  ⟨_, rfl, rfl,
    (raw_url_rebuilt sampleRequest _ rfl "example.com:8080".toList rfl
      (Or.inr ⟨"example.com".toList, "8080".toList, rfl, by decide, by decide,
        by decide⟩)).1⟩

/-- C20: the host list of a returned item has exactly one element, a string without
colon; its port, when there is one, is a non-empty string without colon.  For a host
`a ++ ":" ++ b ++ ":" ++ c` with no colon in `a` and `b`, the host element is `a` and
the port is `b` (no port when `b` is empty), whatever `c` is: the text after the second
colon is in neither. -/
theorem host_and_port_shape (req : JVal) (item : RequestItem)
    (h : talendRequestToPostmanItem req = .ok item) :
    (∃ host, hostOf (uriOf req) = .str host) ∧
    (∃ h0, item.request.url.host = [.str h0] ∧ ':' ∉ h0) ∧
    (∀ v, item.request.url.port = some v → ∃ p, v = .str p ∧ p ≠ [] ∧ ':' ∉ p) ∧
    (∀ a b c, hostOf (uriOf req) = .str (a ++ ':' :: (b ++ ':' :: c)) →
      ':' ∉ a → ':' ∉ b →
      item.request.url.host = [.str a] ∧
      (b = [] → item.request.url.port = none) ∧
      (b ≠ [] → item.request.url.port = some (.str b))) := by
  obtain ⟨schemeName, host, path, -, hh, -, hurl⟩ := url_of_item h
  refine ⟨⟨host, hh⟩, ?_, ?_, ?_⟩
  · rw [hurl]
    cases hsp : split ':' host with
    | nil => exact absurd hsp (split_ne_nil _ _)
    | cons seg segs =>
      refine ⟨seg, by simp [urlOf, hsp, elemAt], ?_⟩
      exact not_mem_of_mem_split (by rw [hsp]; exact List.mem_cons_self _ _)
  · intro v hv
    rw [hurl] at hv
    cases hsp : split ':' host with
    | nil => exact absurd hsp (split_ne_nil _ _)
    | cons seg segs =>
      cases segs with
      | nil => simp [urlOf, hsp, elemAt, truthy] at hv
      | cons seg1 rest =>
        have hmem : seg1 ∈ split ':' host := by
          rw [hsp]
          exact List.mem_cons_of_mem _ (List.mem_cons_self _ _)
        cases seg1 with
        | nil => simp [urlOf, hsp, elemAt, truthy] at hv
        | cons d ds =>
          simp only [urlOf, hsp, elemAt, List.get?_cons_succ, List.get?_cons_zero, truthy,
            List.isEmpty_cons, Bool.not_false, if_true, Option.some.injEq] at hv
          exact ⟨d :: ds, hv.symm, by simp, not_mem_of_mem_split hmem⟩
  · intro a b c hab ha hb
    rw [hh] at hab
    cases hab
    rw [hurl]
    have hsplit := split_two_colons c ha hb
    refine ⟨urlOf_host _ _ hsplit, ?_, ?_⟩
    · rintro rfl
      exact urlOf_port_of_empty _ _ hsplit
    · intro hne
      cases b with
      | nil => exact absurd rfl hne
      | cons d ds => exact urlOf_port_of_cons _ _ hsplit

/-- C20 on two requests: the hosts `a:b:c` and `a:b:zzz:9` give the same host `a` and
the same port `b`; the host `a::c` gives the host `a` and no port. -/
theorem host_and_port_shape_witness :
    (∃ item, talendRequestToPostmanItem (requestWithHost "a:b:c") = .ok item ∧
      item.request.url.host = [lit "a"] ∧ item.request.url.port = some (lit "b")) ∧
    (∃ item, talendRequestToPostmanItem (requestWithHost "a:b:zzz:9") = .ok item ∧
      item.request.url.host = [lit "a"] ∧ item.request.url.port = some (lit "b")) ∧
    (∃ item, talendRequestToPostmanItem (requestWithHost "a::c") = .ok item ∧
      item.request.url.host = [lit "a"] ∧ item.request.url.port = none) :=
  ⟨⟨_, rfl,
      ((host_and_port_shape (requestWithHost "a:b:c") _ rfl).2.2.2 "a".toList "b".toList
        "c".toList rfl (by decide) (by decide)).1,
      ((host_and_port_shape (requestWithHost "a:b:c") _ rfl).2.2.2 "a".toList "b".toList
        "c".toList rfl (by decide) (by decide)).2.2 (by decide)⟩,
   ⟨_, rfl, rfl, rfl⟩,
   ⟨_, rfl, rfl,
      ((host_and_port_shape (requestWithHost "a::c") _ rfl).2.2.2 "a".toList [] "c".toList rfl
        (by decide) (by decide)).2.1 rfl⟩⟩

end Talend2Postman
